import Mathlib

/-!
Verification of the CulinaryCosmos flavor-graph extraction pipeline.

The Python sources (`scripts/extract_flavor_pairings.py`,
`scripts/clean_flavor_data.py`, `scripts/normalize_and_merge_ingredients.py`,
`scripts/filter_non_food_and_isolated.py`) are shallowly embedded below.
Strings are modelled as `List Char` (`Str`); Python's ASCII-range `str.lower`
is modelled by `Char.toLower`, Python's `\s` / `\w` character classes by
`pyIsWs` / `isWordChar`, and the few regular expressions the scripts use by a
small explicit backtracking matcher over token lists (`RTok`), so that every
pattern of the source appears verbatim as a token list.  Python dicts are
modelled as insertion-ordered association lists (`aset` / `alookup`), and
Python sets of strings as deduplicating lists, which preserves all the
set/dict semantics the scripts rely on (membership, per-key update,
insertion-ordered iteration).
-/

namespace CulinaryCosmos

abbrev Str := List Char

/-- Python `\s` (whitespace) restricted to the ASCII whitespace characters:
space, tab, newline, carriage return, vertical tab, form feed. -/
def pyIsWs (c : Char) : Bool :=
  c = ' ' || c = '\t' || c = '\n' || c = '\r' || c = Char.ofNat 11 || c = Char.ofNat 12

/-- Python `\w` (word character), ASCII fragment: alphanumeric or underscore. -/
def isWordChar (c : Char) : Bool := c.isAlphanum || c = '_'

/-- Python `str.lower`, ASCII fragment (`Char.toLower` maps exactly `A`-`Z`). -/
def pyLower (s : Str) : Str := s.map Char.toLower

/-- Drop trailing characters satisfying `p`. -/
def dropTrailWhile (p : Char → Bool) (s : Str) : Str :=
  (s.reverse.dropWhile p).reverse

/-- Python `str.strip()` (no argument): strip whitespace from both ends. -/
def pyStrip (s : Str) : Str := dropTrailWhile pyIsWs (s.dropWhile pyIsWs)

/-- Python `str.strip(chars)`: strip any of the given characters from both ends. -/
def pyStripChars (cs : List Char) (s : Str) : Str :=
  dropTrailWhile (cs.contains ·) (s.dropWhile (cs.contains ·))

/-- Python `str.lstrip('*')`. -/
def lstripStar (s : Str) : Str := s.dropWhile (· = '*')

/-- Python substring test `pat in s` (scan for a prefix at every position). -/
def containsSub : Str → Str → Bool
  | [], pat => pat.isPrefixOf ([] : Str)
  | s@(_ :: t), pat => pat.isPrefixOf s || containsSub t pat

/-- Lexicographic (code-point) comparison of strings, Python's `<` on `str`. -/
def lexLtB : Str → Str → Bool
  | [], [] => false
  | [], _ :: _ => true
  | _ :: _, [] => false
  | a :: s, b :: t =>
      if a.toNat < b.toNat then true
      else if b.toNat < a.toNat then false
      else lexLtB s t

/-- Python `tuple(sorted([a, b]))` / `(min(a,b), max(a,b))` on two strings. -/
def sortPair (a b : Str) : Str × Str := if lexLtB b a then (b, a) else (a, b)

/-- Python `str.split()` (split on whitespace runs, dropping empties):
`wordsAux cur s` scans `s`, with `cur` holding the current word reversed. -/
def wordsAux : Str → Str → List Str
  | cur, [] => if cur.isEmpty then [] else [cur.reverse]
  | cur, c :: t =>
      if pyIsWs c then
        if cur.isEmpty then wordsAux [] t else cur.reverse :: wordsAux [] t
      else wordsAux (c :: cur) t

def pyWords (s : Str) : List Str := wordsAux [] s

/-- Python `' '.join(s.split())`: collapse internal whitespace. -/
def collapseWs (s : Str) : Str := List.intercalate [' '] (pyWords s)

/-- Python `str.split(sep)` for a one-character separator (keeps empties). -/
def splitOnChar (c : Char) : Str → List Str
  | [] => [[]]
  | x :: t =>
      let r := splitOnChar c t
      if x = c then [] :: r
      else (x :: r.headI) :: r.tail

/-- Python `str.split(sep, 1)` for a multi-character separator: split at the
first occurrence; returns `none` when the separator does not occur. -/
def splitOnceSub (sep : Str) : Str → Option (Str × Str)
  | [] => if sep.isEmpty then some ([], []) else none
  | s@(c :: t) =>
      if sep.isPrefixOf s then some ([], s.drop sep.length)
      else match splitOnceSub sep t with
        | some (a, b) => some (c :: a, b)
        | none => none

/-- Python `str.split(sep)` for a multi-character separator (fueled scan). -/
def splitSubF : Nat → Str → Str → List Str
  | 0, _, s => [s]
  | fuel + 1, sep, s =>
      match splitOnceSub sep s with
      | some (a, b) => a :: splitSubF fuel sep b
      | none => [s]

def splitSub (sep s : Str) : List Str := splitSubF (s.length + 1) sep s

/-- Python `str.replace(pat, "")` (remove every occurrence, fueled scan). -/
def removeAllF : Nat → Str → Str → Str
  | 0, _, s => s
  | fuel + 1, pat, s =>
      match s with
      | [] => []
      | c :: t =>
          if pat.isPrefixOf s && !pat.isEmpty then removeAllF fuel pat (s.drop pat.length)
          else c :: removeAllF fuel pat t

def removeAll (pat s : Str) : Str := removeAllF (s.length + 1) pat s

/-- Python `str.isupper`: at least one cased character and no lowercase one
(ASCII fragment: cased = latin letter). -/
def pyIsUpperStr (s : Str) : Bool :=
  (s.filter Char.isAlpha).length != 0 && (s.filter Char.isAlpha).all Char.isUpper

/-- Python `str.rstrip('s')`. -/
def rstripS (s : Str) : Str := dropTrailWhile (· = 's') s

end CulinaryCosmos

namespace CulinaryCosmos

/-! ### A tiny regex matcher

Just enough of Python `re` for the patterns appearing in the scripts:
literal characters, `\s+`, `\w+`, an optional literal (`'?`), word boundary
`\b`, and the anchors `^` / `$`.  `reMatch` is a backtracking matcher trying
a match at the current position; `reSearch` is Python `re.search`, trying a
match at every position.  The matcher is fueled (the fuel argument strictly
decreases); the supplied fuel `toks.length + s.length + 1` dominates the
longest possible backtracking-free path, every step of which consumes a
token or a character. -/

inductive RTok
  | lit (c : Char)
  | anyWs
  | anyWd
  | opt (c : Char)
  | bdry
  | bos
  | eos
  deriving DecidableEq

def isWordOpt : Option Char → Bool
  | none => false
  | some c => isWordChar c

def reMatch : Nat → List RTok → Option Char → Str → Bool
  | 0, _, _, _ => false
  | _ + 1, [], _, _ => true
  | _ + 1, .eos :: _, _, s => s.isEmpty
  | f + 1, .bos :: ts, prev, s => prev.isNone && reMatch f ts prev s
  | f + 1, .bdry :: ts, prev, s =>
      (isWordOpt prev != isWordOpt s.head?) && reMatch f ts prev s
  | _ + 1, .lit _ :: _, _, [] => false
  | f + 1, .lit c :: ts, _, x :: t => x = c && reMatch f ts (some x) t
  | f + 1, .opt c :: ts, prev, s =>
      (match s with
       | x :: t => (x = c && reMatch f ts (some x) t) || reMatch f ts prev s
       | [] => reMatch f ts prev s)
  | _ + 1, .anyWs :: _, _, [] => false
  | f + 1, .anyWs :: ts, _, x :: t =>
      pyIsWs x && (reMatch f ts (some x) t || reMatch f (.anyWs :: ts) (some x) t)
  | _ + 1, .anyWd :: _, _, [] => false
  | f + 1, .anyWd :: ts, _, x :: t =>
      isWordChar x && (reMatch f ts (some x) t || reMatch f (.anyWd :: ts) (some x) t)

def reSearch (toks : List RTok) : Option Char → Str → Bool
  | prev, s =>
      reMatch (toks.length + s.length + 1) toks prev s ||
        match s with
        | [] => false
        | x :: t => reSearch toks (some x) t

/-- Python `re.search(pat, s)` as a boolean. -/
def reTest (toks : List RTok) (s : Str) : Bool := reSearch toks none s

/-- Literal characters of a pattern. -/
def lits (s : String) : List RTok := s.toList.map RTok.lit

end CulinaryCosmos

namespace CulinaryCosmos

/-! ### `extract_flavor_pairings.normalize_ingredient` and friends

Each `re.sub` of the source becomes one explicit scanning function.  The
scanners keep a `committed` prefix (already copied to the output) and a
`pendingWs` buffer holding a whitespace run that may yet become the `\s*`
part of a match. -/

/-- `re.sub(r'\s*—\s+.*$', '', s)`: on the leftmost em dash followed by
whitespace, drop it, the whitespace run before it, and everything after. -/
def dashSubAux : Str → Str → Str → Str
  | committed, pendingWs, [] => committed ++ pendingWs
  | committed, pendingWs, c :: rest =>
      if pyIsWs c then dashSubAux committed (pendingWs ++ [c]) rest
      else if c = '—' && (rest.head?.elim false pyIsWs) then committed
      else dashSubAux (committed ++ pendingWs ++ [c]) [] rest

def dashSub (s : Str) : Str := dashSubAux [] [] s

/-- `re.sub(r'\s*\([^)]*\)\s*', ' ', s)`: replace every parenthesized group
(with surrounding whitespace) by a single space.  A `(` with no later `)`
cannot match and is copied through. -/
def parenSubAux : Nat → Str → Str → Str → Str
  | 0, committed, pendingWs, rest => committed ++ pendingWs ++ rest
  | _ + 1, committed, pendingWs, [] => committed ++ pendingWs
  | fuel + 1, committed, pendingWs, c :: rest =>
      if pyIsWs c then parenSubAux fuel committed (pendingWs ++ [c]) rest
      else if c = '(' then
        let inner := rest.takeWhile (· ≠ ')')
        match rest.drop inner.length with
        | ')' :: rest' => parenSubAux fuel (committed ++ [' ']) [] (rest'.dropWhile pyIsWs)
        | _ => parenSubAux fuel (committed ++ pendingWs ++ [c]) [] rest
      else parenSubAux fuel (committed ++ pendingWs ++ [c]) [] rest

def parenSub (s : Str) : Str := parenSubAux (s.length + 1) [] [] s

/-- `re.sub(r'[(\[]\s*', ' ', s)`: every `(` or `[` and the following
whitespace run become one space. -/
def orphanOpenAux : Nat → Str → Str → Str
  | 0, committed, rest => committed ++ rest
  | _ + 1, committed, [] => committed
  | fuel + 1, committed, c :: rest =>
      if c = '(' || c = '[' then orphanOpenAux fuel (committed ++ [' ']) (rest.dropWhile pyIsWs)
      else orphanOpenAux fuel (committed ++ [c]) rest

def orphanOpenSub (s : Str) : Str := orphanOpenAux (s.length + 1) [] s

/-- `re.sub(r'\s*[)\]]', ' ', s)`: every `)` or `]` and the preceding
whitespace run become one space. -/
def orphanCloseAux : Str → Str → Str → Str
  | committed, pendingWs, [] => committed ++ pendingWs
  | committed, pendingWs, c :: rest =>
      if pyIsWs c then orphanCloseAux committed (pendingWs ++ [c]) rest
      else if c = ')' || c = ']' then orphanCloseAux (committed ++ [' ']) [] rest
      else orphanCloseAux (committed ++ pendingWs ++ [c]) [] rest

def orphanCloseSub (s : Str) : Str := orphanCloseAux [] [] s

/-- `re.sub(r'\b(esp\.|e\.g\.)\s*', '', s)`: remove each word-boundary
occurrence of `esp.` or `e.g.` together with the following whitespace run.
`prevWord` is the word-character status of the previous character. -/
def espSubAux : Nat → Bool → Str → Str
  | 0, _, rest => rest
  | _ + 1, _, [] => []
  | fuel + 1, prevWord, s@(c :: rest) =>
      if !prevWord && ("esp.".toList.isPrefixOf s || "e.g.".toList.isPrefixOf s) then
        espSubAux fuel false ((s.drop 4).dropWhile pyIsWs)
      else c :: espSubAux fuel (isWordChar c) rest

def espSub (s : Str) : Str := espSubAux (s.length + 1) false s

/-- `normalize_ingredient` (extract_flavor_pairings.py:37-53). -/
def normalize_ingredient (s : Str) : Str :=
  collapseWs (espSub (orphanCloseSub (orphanOpenSub (parenSub (dashSub
    (lstripStar (pyLower (pyStrip s))))))))

/-- `re.sub(r'\s+(esp\.|e\.g\.)\s+.*$', '', part, flags=re.I)` used by
`parse_pairing_line`: drop everything from the leftmost whitespace-preceded,
whitespace-followed `esp.`/`e.g.` (case-insensitive) to the end. -/
def espTailAux : Str → Str → Str → Str
  | committed, pendingWs, [] => committed ++ pendingWs
  | committed, pendingWs, s@(c :: rest) =>
      if pyIsWs c then espTailAux committed (pendingWs ++ [c]) rest
      else if !pendingWs.isEmpty &&
          ("esp.".toList.isPrefixOf (pyLower s) || "e.g.".toList.isPrefixOf (pyLower s)) &&
          ((s.drop 4).head?.elim false pyIsWs) then committed
      else espTailAux (committed ++ pendingWs ++ [c]) [] rest

def espTailSub (s : Str) : Str := espTailAux [] [] s

/-- Sentence-like substrings rejected by `is_valid_ingredient`
(extract_flavor_pairings.py:64-69). -/
def sentenceCues : List Str :=
  ["recommended by", "suggested by", "key:", "flavors mentioned", "those in",
   "percent", "part salt", "part sugar", "mixture of", "a dish", "a cake",
   "a hint of", "a little", "a couple of", "a dash of", "a light", "a moment",
   "a contrast", "a fruit", "a harvard", "a latin", "a friend", "a delicious"
  ].map String.toList

/-- `BLOCKLIST` (extract_flavor_pairings.py:25-34). -/
def extractBlocklist : List Str :=
  ["about the", "see also", "acknowledgments", "acquiring editor",
   "achieve balance", "adding bright", "adding some", "after a ",
   "adnews", "awakens flavors", "— bob", "twenty-year",
   "visit to spain", "corporate career", "editor and publisher",
   "and then cooked", "all a mushroom needs", "all the flavor stays",
   "if i ", "most of the time", "the vegetables",
   "also called for", "also known as", "along with",
   "restaurant", "cuisine"].map String.toList

/-- `re.match(r'^(a|an|the|and|also|along)\s+', name)`: the string starts
with one of the listed words followed by a whitespace character. -/
def startsWithArticle (s : Str) : Bool :=
  ["a", "an", "the", "and", "also", "along"].any fun w =>
    w.toList.isPrefixOf s && ((s.drop w.length).head?.elim false pyIsWs)

/-- `is_valid_ingredient` (extract_flavor_pairings.py:56-90). -/
def is_valid_ingredient (name : Str) : Bool :=
  if name.isEmpty || name.length < 2 then false
  else if name.length > 45 then false
  else if sentenceCues.any (containsSub name ·) then false
  else if startsWithArticle name then false
  else if name.all (fun c => !isWordChar c || c.isDigit) then false
  else if name.any Char.isDigit then false
  else if (name.getLast?.elim false (fun c => c = '.' || c = '!' || c = '?')) then false
  else if (name.head?.elim false (· = '(')) || (name.getLast?.elim false (· = ')')) then false
  else if extractBlocklist.any (containsSub (pyLower name) ·) then false
  else true

/-- `is_ingredient_header` (extract_flavor_pairings.py:93-110). -/
def is_ingredient_header (line : Str) : Bool :=
  let stripped := pyStrip line
  if stripped.isEmpty || stripped.length < 2 then false
  else
    let lower := pyLower stripped
    if ["season:", "taste:", "weight:", "volume:", "techniques:", "tips:",
        "avoid:", "function:"].any (fun p => p.toList.isPrefixOf lower) then false
    else if lower = "flavor affinities".toList then false
    else
      let letters := stripped.filter Char.isAlpha
      if letters.isEmpty then false
      else 4 * letters.length ≤ 5 * (letters.filter Char.isUpper).length

end CulinaryCosmos

namespace CulinaryCosmos

/-! ### Association lists (Python `dict`, insertion-ordered) -/

variable {κ ν : Type} [DecidableEq κ]

def alookup (k : κ) : List (κ × ν) → Option ν
  | [] => none
  | (k', v) :: t => if k = k' then some v else alookup k t

/-- Python `d[k] = v`: replace in place if present, else append. -/
def aset (k : κ) (v : ν) : List (κ × ν) → List (κ × ν)
  | [] => [(k, v)]
  | (k', v') :: t => if k = k' then (k, v) :: t else (k', v') :: aset k v t

/-! ### `parse_pairing_line` / `parse_flavor_affinity`
(extract_flavor_pairings.py:113-174) -/

/-- The per-part cleanup inside `parse_pairing_line`'s loop (lines 144-149). -/
def cleanPairingPart (part : Str) : Str :=
  normalize_ingredient (collapseWs (pyStripChars [' ', ')'] (parenSub (espTailSub part))))

/-- `parse_pairing_line` (extract_flavor_pairings.py:113-152). -/
def parse_pairing_line (line : Str) (isBold : Bool) : List (Str × Nat) :=
  let lower := pyLower line
  if ["key:", "flavors mentioned", "those in", "recommended by"].any
      (fun p => containsSub lower p.toList) then []
  else
    let lineRaw := pyStrip line
    if lineRaw.isEmpty then []
    else
      let hasAsterisk := (lineRaw.dropWhile pyIsWs).head?.elim false (· = '*')
      let firstPart := pyStrip (splitOnChar ',' lineRaw).headI
      let firstWord := if firstPart.isEmpty then [] else (pyWords firstPart).headI
      let isAllCaps := pyIsUpperStr firstWord && firstWord.length > 1
      let level : Nat :=
        if hasAsterisk then 4 else if isAllCaps then 3 else if isBold then 2 else 1
      ((splitOnChar ',' lineRaw).map pyStrip).filterMap fun part =>
        let norm := cleanPairingPart part
        if !norm.isEmpty && is_valid_ingredient norm then some (norm, level) else none

/-- The nested `for i / for j in range(i+1, ...)` loop of
`parse_flavor_affinity` (lines 169-173): all ordered-index pairs with
distinct values. -/
def cliquePairs : List Str → List (Str × Str)
  | [] => []
  | x :: xs => (xs.filter (· ≠ x)).map (fun y => (x, y)) ++ cliquePairs xs

/-- `parse_flavor_affinity` (extract_flavor_pairings.py:155-174). -/
def parse_flavor_affinity (line : Str) : List (Str × Str) :=
  let l := pyStrip line
  if l.isEmpty || containsSub (pyLower l) "flavor affinit".toList then []
  else
    let parts0 := ((splitOnChar '+' l).map pyStrip).filter (fun p => !p.isEmpty)
    let parts := (parts0.map normalize_ingredient).filter is_valid_ingredient
    if parts.length < 2 then [] else cliquePairs parts

/-! ### The page-loop state machine of `extract_from_pdf`
(extract_flavor_pairings.py:184-254), modelled over a list of already
segmented lines `(text, is_bold)`. -/

structure ExtractState where
  pairings : List (Str × List Str)
  edgeLevels : List ((Str × Str) × Nat)
  affinityEdges : List (Str × Str)
  current : Option Str
  inAffinities : Bool
  deriving DecidableEq

def initExtractState : ExtractState := ⟨[], [], [], none, false⟩

/-- `pairings[a].add(b)` on the `defaultdict(set)`. -/
def addPairing (p : List (Str × List Str)) (a b : Str) : List (Str × List Str) :=
  let cur := (alookup a p).getD []
  aset a (if cur.contains b then cur else cur ++ [b]) p

/-- The two symmetric `add` calls (lines 220-221 / 251-252). -/
def addPair2 (p : List (Str × List Str)) (a b : Str) : List (Str × List Str) :=
  addPairing (addPairing p a b) b a

/-- `edge_levels[key] = max(edge_levels.get(key, 1), level)` with
`key = frozenset([a, b])` modelled as the sorted pair. -/
def bumpLevel (lv : List ((Str × Str) × Nat)) (a b : Str) (level : Nat) :
    List ((Str × Str) × Nat) :=
  let key := sortPair a b
  aset key (max ((alookup key lv).getD 1) level) lv

/-- One parsed pairing observation (the body of the loop at lines 249-254):
skipped unless `ing` is nonempty and differs from the current ingredient. -/
def recordObs (p : List (Str × List Str)) (lv : List ((Str × Str) × Nat))
    (cur ing : Str) (level : Nat) :
    List (Str × List Str) × List ((Str × Str) × Nat) :=
  if !ing.isEmpty && ing ≠ cur then (addPair2 p cur ing, bumpLevel lv cur ing level)
  else (p, lv)

/-- `METADATA_KEYS` (extract_flavor_pairings.py:20-23). -/
def metadataKeys : List Str :=
  ["season", "taste", "weight", "volume", "techniques", "tips",
   "flavor affinities", "avoid", "function"].map String.toList

/-- Python truthiness of the `current_ingredient` variable
(`None` and `""` are falsy). -/
def curTruthy : Option Str → Bool
  | none => false
  | some s => !s.isEmpty

/-- Processing of one segmented line (the body of the `for top in sorted(...)`
loop, extract_flavor_pairings.py:203-254). -/
def processLine (st : ExtractState) (lb : Str × Bool) : ExtractState :=
  let line := pyStrip lb.1
  let isBold := lb.2
  if line.isEmpty then st
  else if containsSub (pyLower line) "flavor affinit".toList then
    { st with inAffinities := true }
  else if st.inAffinities && line.contains '+' && !pyIsUpperStr line then
    let edges := parse_flavor_affinity line
    let pl := edges.foldl
      (fun (pl : _ × _) e => (addPair2 pl.1 e.1 e.2, bumpLevel pl.2 e.1 e.2 2))
      (st.pairings, st.edgeLevels)
    { st with affinityEdges := st.affinityEdges ++ edges,
              pairings := pl.1, edgeLevels := pl.2 }
  else if is_ingredient_header line then
    let header := pyStrip (splitOnChar ':' line).headI
    let normHeader := normalize_ingredient header
    { st with inAffinities := false,
              current := if is_valid_ingredient normHeader then some normHeader else none }
  else if curTruthy st.current && !st.inAffinities then
    let lower := pyLower line
    if metadataKeys.any (fun k => k.isPrefixOf lower) then
      if containsSub lower "flavor affinit".toList then { st with inAffinities := true }
      else st
    else if is_ingredient_header line then
      { st with current := some (normalize_ingredient (pyStrip (splitOnChar ':' line).headI)) }
    else
      let cur := st.current.getD []
      let parsed := parse_pairing_line line isBold
      let pl := parsed.foldl (fun (pl : _ × _) o => recordObs pl.1 pl.2 cur o.1 o.2)
        (st.pairings, st.edgeLevels)
      { st with pairings := pl.1, edgeLevels := pl.2 }
  else st

/-! ### `build_edges` and the graph assembly in `main`
(extract_flavor_pairings.py:259-307). -/

structure Node where
  id : Str
  label : Str
  category : Option Str
  deriving DecidableEq

structure Edge where
  source : Str
  target : Str
  weight : Nat
  recommendation_level : Nat
  from_affinity : Bool
  deriving DecidableEq

structure Graph where
  nodes : List Node
  edges : List Edge
  deriving DecidableEq

/-- The two nested loops of `build_edges`, linearized in iteration order. -/
def pairingItems (p : List (Str × List Str)) : List (Str × Str) :=
  p.flatMap fun kv => kv.2.map (fun b => (kv.1, b))

/-- One edge as emitted by `build_edges` for the pair `ab`:
`weight = recommendation_level = edge_levels.get(frozenset(ab), 1)`. -/
def beEdge (lv : List ((Str × Str) × Nat)) (ab : Str × Str) : Edge :=
  let level := (alookup (sortPair ab.1 ab.2) lv).getD 1
  ⟨ab.1, ab.2, level, level, false⟩

/-- The loop body of `build_edges` (lines 264-276), on the state
`(seen, edges)`. -/
def beStep (lv : List ((Str × Str) × Nat))
    (acc : List (Str × Str) × List Edge) (ab : Str × Str) :
    List (Str × Str) × List Edge :=
  if acc.1.contains (sortPair ab.1 ab.2) then acc
  else (acc.1 ++ [sortPair ab.1 ab.2], acc.2 ++ [beEdge lv ab])

/-- `build_edges` (extract_flavor_pairings.py:259-277). -/
def build_edges (p : List (Str × List Str)) (lv : List ((Str × Str) × Nat)) :
    List Edge :=
  ((pairingItems p).foldl (beStep lv) ([], [])).2

/-- Insertion sort by Python string order, for `sorted(set(keys))`. -/
def sortedStrs (l : List Str) : List Str :=
  l.insertionSort (fun a b => !lexLtB b a)

/-- The post-extraction assembly in `main` (extract_flavor_pairings.py:290-307):
validity filtering of the pairings dict and of `edge_levels`, node list,
`build_edges`, and the `from_affinity` marking. -/
def mainExtract (lines : List (Str × Bool)) : Graph :=
  let st := lines.foldl processLine initExtractState
  let valid := (st.pairings.map Prod.fst).filter is_valid_ingredient
  let pairings := (st.pairings.filter (fun kv => valid.contains kv.1)).map
    (fun kv => (kv.1, kv.2.filter is_valid_ingredient))
  let edgeLevels := st.edgeLevels.filter
    (fun kv => valid.contains kv.1.1 && valid.contains kv.1.2)
  let nodes := sortedStrs (pairings.map Prod.fst).dedup
  let edges := build_edges pairings edgeLevels
  let affinitySet := st.affinityEdges.map (fun ab => sortPair ab.1 ab.2)
  let edges := edges.map fun e =>
    if affinitySet.contains (sortPair e.source e.target) then
      { e with from_affinity := true }
    else e
  ⟨nodes.map (fun n => ⟨n, n, none⟩), edges⟩

end CulinaryCosmos

namespace CulinaryCosmos

/-! ### `normalize_and_merge_ingredients.py` -/

/-- `\bw1\s+w2\s+...\s+wn`: word-boundary then literal words joined by `\s+`. -/
def pWords (ws : List String) : List RTok :=
  RTok.bdry :: List.intercalate [RTok.anyWs] (ws.map lits)

/-- `PHRASE_PATTERNS` (normalize_and_merge_ingredients.py:13-45), in source
order.  Each token list is the literal translation of one pattern. -/
def phrasePatterns : List (List RTok) :=
  [ RTok.bos :: lits "are" ++ [.anyWs],
    pWords ["are"] ++ [.anyWs, .anyWd],
    pWords ["is"] ++ [.anyWs, .anyWd],
    pWords ["in", "carrot", "butter"],
    pWords ["in", "red", "wine", "sauce"],
    pWords ["in", "a"] ++ [.anyWs],
    pWords ["in", "the"] ++ [.anyWs],
    pWords ["as", "in"] ++ [.anyWs],
    pWords ["for", "granted"],
    pWords ["if", "you", "want"],
    pWords ["when", "they", "are"],
    RTok.bdry :: lits "don" ++ [.opt '\''] ++ lits "t" ++ [.anyWs, .anyWd],
    pWords ["those"] ++ [.anyWs],
    pWords ["then", "pull"],
    pWords ["typically", "in"],
    pWords ["generally", "in"],
    pWords ["shirts", "in", "half"],
    pWords ["emulsification", "in"],
    pWords ["popular", "in"],
    pWords ["marinated", "in"] ++ [.anyWs, .anyWd] ++ lits "s" ++ [.eos],
    pWords ["stuffed", "in"] ++ [.anyWs],
    pWords ["jalapeños", "in", "an"] ++ [.anyWs],
    pWords ["mussels", "in", "a"] ++ [.anyWs],
    pWords ["short", "ribs", "are"] ++ [.anyWs],
    pWords ["peppers", "are", "smoked"],
    pWords ["rosemary", "is", "milder"],
    RTok.bdry :: lits "i" ++ [.opt '\''] ++ lits "d" ++ [.anyWs] ++ lits "toss"
      ++ [.anyWs] ++ lits "in",
    pWords ["summer", "when", "they"],
    pWords ["baby", "round", "carrots", "in"],
    pWords ["braised", "short", "ribs", "in"],
    pWords ["round", "carrots", "in"] ]

/-- `is_single_ingredient` (normalize_and_merge_ingredients.py:48-68). -/
def is_single_ingredient (nodeId : Str) : Bool :=
  let lower := pyStrip (pyLower nodeId)
  if "and ".toList.isPrefixOf lower || "and/or".toList.isPrefixOf lower then false
  else if (pyWords lower).length > 4 then false
  else if phrasePatterns.any (fun p => reTest p lower) then false
  else if containsSub lower " in ".toList &&
      ["sauce", "butter", "wine", "pan", "dessert"].any
        (fun x => containsSub lower x.toList) then false
  else true

/-- `singular_map` (normalize_and_merge_ingredients.py:240-253). -/
def singularEntries : List (Str × Str) :=
  ([("apricots", "apricot"), ("apples", "apple"), ("bananas", "banana"),
    ("beans", "beans"), ("berries", "berry"), ("carrots", "carrot"),
    ("cherries", "cherry"), ("dates", "date"), ("figs", "fig"),
    ("grapes", "grape"), ("lemons", "lemon"), ("limes", "lime"),
    ("mangoes", "mango"), ("mangos", "mango"), ("melons", "melon"),
    ("olives", "olive"), ("onions", "onion"), ("oranges", "orange"),
    ("peaches", "peach"), ("pears", "pear"), ("peas", "pea"),
    ("peppers", "pepper"), ("plums", "plum"), ("potatoes", "potato"),
    ("tomatoes", "tomato"), ("walnuts", "walnut"), ("almonds", "almond"),
    ("anchovies", "anchovy"), ("clams", "clam"), ("mussels", "mussel"),
    ("oysters", "oyster"), ("scallops", "scallop"), ("shrimps", "shrimp"),
    ("shrimp", "shrimp"), ("herbs", "herbs"), ("spices", "spices")]
    : List (String × String)).map fun kv => (kv.1.toList, kv.2.toList)

/-- The `"X, Y"` rule cascade of `normalize_to_canonical`
(normalize_and_merge_ingredients.py:131-237), given `a, b = lower.split(", ", 1)`.
Each branch is the literal translation of one `if` of the source, in order. -/
def commaRules (a b : Str) : Str :=
  let bNE := !b.isEmpty
  if ["thai", "lemon", "sweet", "holy"].any (fun x => x.toList = b) then b ++ ' ' :: a
  else if b = "star".toList then "star anise".toList
  else if a = "oil".toList && bNE then b ++ " oil".toList
  else if a = "vinegar".toList && bNE then b ++ " vinegar".toList
  else if a = "balsamic".toList && containsSub b "vinegar".toList then b ++ ' ' :: a
  else if a = "pepper".toList && (b = "black".toList || b = "white".toList) then
    b ++ " pepper".toList
  else if a = "cream".toList && bNE then b ++ " cream".toList
  else if a = "chicken".toList && bNE then b ++ " chicken".toList
  else if a = "crab".toList && bNE then b ++ " crab".toList
  else if a = "chocolate".toList && bNE then b ++ " chocolate".toList
  else if a = "ham".toList && bNE then b ++ " ham".toList
  else if a = "honey".toList && bNE then b ++ " honey".toList
  else if a = "lamb".toList && bNE then
    if b = "chops".toList || b = "shank".toList then a ++ ' ' :: b else b ++ ' ' :: a
  else if ["lemon", "lime", "orange"].any (fun x => x.toList = a) && b = "juice".toList then
    a ++ " juice".toList
  else if a = "lettuce".toList && bNE then b ++ " lettuce".toList
  else if a = "liver".toList && bNE then b ++ " liver".toList
  else if a = "mint".toList && b = "peppermint".toList then "peppermint".toList
  else if a = "mint".toList && bNE then b ++ " mint".toList
  else if a = "mustard".toList && bNE then b ++ " mustard".toList
  else if a = "paprika".toList && bNE then b ++ " paprika".toList
  else if a = "parsley".toList && bNE then b ++ " parsley".toList
  else if a = "rice".toList && bNE then b ++ " rice".toList
  else if (a = "salmon".toList || a = "trout".toList) && bNE then b ++ ' ' :: a
  else if a = "salt".toList && bNE then
    if !b.contains ' ' then b ++ " salt".toList else b
  else if a = "savory".toList && bNE then b ++ " savory".toList
  else if a = "stock".toList && bNE then b ++ " stock".toList
  else if a = "sugar".toList && bNE then b ++ " sugar".toList
  else if a = "wine".toList && bNE then b ++ " wine".toList
  else if a = "cabbage".toList && bNE then b ++ " cabbage".toList
  else if a = "pepper".toList && bNE && !(b = "black".toList || b = "white".toList) then
    b ++ " pepper".toList
  else if a = "butter".toList && (b = "unsalted".toList || b = "salted".toList) then
    "butter".toList
  else if ["bass", "cod", "fish"].any (fun x => x.toList = a) && bNE then b ++ ' ' :: a
  else if (a.getLast?.elim false (· = 's')) && bNE then b ++ ' ' :: a.dropLast
  else if ["ground", "whole", "minced", "chopped", "sliced"].any (fun x => x.toList = b) then a
  else b ++ ' ' :: a

/-- `normalize_to_canonical` (normalize_and_merge_ingredients.py:92-257),
fueled: the source recurses on strictly shorter strings (each recursive call
removes an occurrence of `", dried"`, a `"dried "` prefix, `", fresh"` or
`", canned"`), so fuel `length + 1` always suffices. -/
def normCanonF : Nat → Str → Str
  | 0, name => name
  | fuel + 1, name =>
    let lower := pyStrip (pyLower name)
    match splitOnceSub ": ".toList lower with
    | some (cat, ing) =>
        if ["liqueurs", "vinegar", "oil", "wine"].any (fun x => x.toList = cat) then
          pyStrip (pyStrip ing ++ ' ' :: rstripS cat)
        else pyStrip ing
    | none =>
      if containsSub lower ", dried".toList then
        normCanonF fuel (pyStrip (removeAll ", dried".toList lower))
      else if "dried ".toList.isPrefixOf lower then
        normCanonF fuel (pyStrip (lower.drop 6))
      else if containsSub lower ", fresh".toList then
        normCanonF fuel (pyStrip (removeAll ", fresh".toList lower))
      else if containsSub lower ", canned".toList then
        normCanonF fuel (pyStrip (removeAll ", canned".toList lower))
      else if "cheese, ".toList.isPrefixOf lower then
        pyStrip (removeAll "cheese, ".toList lower)
      else if "beans, ".toList.isPrefixOf lower then
        let parts := splitSub ", ".toList (removeAll "beans, ".toList lower)
        parts.headI ++ " beans".toList
      else
        match splitOnceSub ", ".toList lower with
        | some (a, b) => commaRules a b
        | none =>
          match alookup lower singularEntries with
          | some v => v
          | none => lower

def normalize_to_canonical (name : Str) : Str := normCanonF (name.length + 1) name

/-- `expand_comma_to_canonicals` (normalize_and_merge_ingredients.py:71-89). -/
def expand_comma_to_canonicals (name : Str) : List Str :=
  let lower := pyStrip (pyLower name)
  if !containsSub lower ", ".toList then [normalize_to_canonical lower]
  else
    let parts := (splitSub ", ".toList lower).map pyStrip
    let base := parts.headI
    let variants := parts.tail
    if base = "chocolate".toList && variants.length ≥ 2 then
      variants.map (fun v => v ++ " chocolate".toList)
    else [normalize_to_canonical name]

/-- Step 2 of `main` (normalize_and_merge_ingredients.py:285-294): the
canonical ids assigned to one original id, including the compound-product
guard for `" brandy"`, `" liqueur"`, `" wine"`, `" vinegar"`. -/
def canonicalsFor (orig : Str) : List Str :=
  if containsSub orig " brandy".toList || containsSub orig " liqueur".toList ||
      containsSub orig " wine".toList || containsSub orig " vinegar".toList then
    let canon := normalize_to_canonical orig
    if orig ≠ canon &&
        ["apricot", "cherry", "orange", "peach"].any (fun x => x.toList = canon) then
      [orig]
    else expand_comma_to_canonicals orig
  else expand_comma_to_canonicals orig

/-- One insertion into `canon_to_node` (step 3, lines 297-301):
`if canon not in canon_to_node: canon_to_node[canon] = {...}`. -/
def canonInsert (category : Str) (acc : List (Str × Node)) (c : Str) :
    List (Str × Node) :=
  if (alookup c acc).isSome then acc
  else acc ++ [(c, (⟨c, c, some category⟩ : Node))]

/-- All insertions made for one filtered node. -/
def canonNodesOfNode (idToCanonicals : List (Str × List Str))
    (acc : List (Str × Node)) (n : Node) : List (Str × Node) :=
  ((alookup n.id idToCanonicals).getD []).foldl
    (canonInsert ((n.category).getD "other".toList)) acc

/-- Innermost body of the edge-remap loop (step 4, lines 310-315). -/
def edgeDataStep (canonToNode : List (Str × Node)) (w r : Nat)
    (acc : List ((Str × Str) × (Nat × Nat))) (src tgt : Str) :
    List ((Str × Str) × (Nat × Nat)) :=
  if src ≠ tgt && (alookup src canonToNode).isSome &&
      (alookup tgt canonToNode).isSome then
    aset (sortPair src tgt)
      (max ((alookup (sortPair src tgt) acc).getD (0, 0)).1 w,
       max ((alookup (sortPair src tgt) acc).getD (0, 0)).2 r) acc
  else acc

/-- The Cartesian expansion of one filtered edge (step 4, lines 305-315). -/
def edgeDataOfEdge (idToCanonicals : List (Str × List Str))
    (canonToNode : List (Str × Node))
    (acc : List ((Str × Str) × (Nat × Nat))) (e : Edge) :
    List ((Str × Str) × (Nat × Nat)) :=
  ((alookup e.source idToCanonicals).getD [e.source]).foldl
    (fun acc src =>
      ((alookup e.target idToCanonicals).getD [e.target]).foldl
        (fun acc tgt =>
          edgeDataStep canonToNode e.weight e.recommendation_level acc src tgt)
        acc)
    acc

/-- The node-canonicalization-and-merge transformation of `main`
(normalize_and_merge_ingredients.py:275-320): filter to single ingredients,
map ids to canonical ids, collapse nodes, rewrite edges to the Cartesian
product of canonical endpoint sets with per-pair max reconciliation. -/
def mergePass (g : Graph) : Graph :=
  let keepIds := (g.nodes.filter (fun n => is_single_ingredient n.id)).map Node.id
  let nodesFiltered := g.nodes.filter (fun n => keepIds.contains n.id)
  let edgesFiltered := g.edges.filter
    (fun e => keepIds.contains e.source && keepIds.contains e.target)
  let idToCanonicals := nodesFiltered.foldl
    (fun acc n => aset n.id (canonicalsFor n.id) acc) []
  let canonToNode := nodesFiltered.foldl (canonNodesOfNode idToCanonicals) []
  let edgeData := edgesFiltered.foldl (edgeDataOfEdge idToCanonicals canonToNode) []
  ⟨canonToNode.map Prod.snd,
   edgeData.map (fun kv => (⟨kv.1.1, kv.1.2, kv.2.1, kv.2.2, false⟩ : Edge))⟩

/-! ### `clean_flavor_data.py` -/

/-- The graph rewriting of `clean_flavor_data.main`
(clean_flavor_data.py:253-264): keep the nodes whose id satisfies `keep`
(in the source, `keep = not ∘ should_remove`, a fixed junk-id predicate;
the rewriting itself is independent of it, so it is a parameter here) and
the edges whose two endpoints are kept node ids. -/
def cleanPass (keep : Str → Bool) (g : Graph) : Graph :=
  let keepIds := (g.nodes.filter (fun n => keep n.id)).map Node.id
  ⟨g.nodes.filter (fun n => keepIds.contains n.id),
   g.edges.filter (fun e => keepIds.contains e.source && keepIds.contains e.target)⟩

end CulinaryCosmos

namespace CulinaryCosmos

/-! ### `filter_non_food_and_isolated.py` -/

/-- `NON_FOOD_WORDS` (filter_non_food_and_isolated.py:12-45), verbatim
(the Python set literal contains repeated entries; membership is unaffected). -/
def nonFoodWords : List Str :=
  (["serve", "served", "serving", "seedless", "back", "ask", "avoid",
    "balance", "baking", "autumn", "august", "fall", "spring", "winter",
    "summer", "example", "around", "artificial", "artisanal", "aroma",
    "astringency", "bitter", "bitterness", "sweetness", "acidity",
    "beverages", "dishes", "appetizers", "desserts", "cuisines",
    "cooked", "raw", "fermented", "broiled", "barbecued", "grilled",
    "minced", "chopped", "sliced", "diced", "ground", "whole",
    "baby", "adult", "fresh", "dried", "canned", "frozen",
    "avoid", "use", "try", "add", "adds", "ask", "back",
    "belly", "flakes", "balm", "cress", "european", "arizona",
    "asiate", "babbo", "barbate", "berkswell", "azeitao",
    "august", "balance", "baking", "barbecue", "barbecued",
    "bitter", "bitterness", "bitters", "black", "white", "red",
    "green", "yellow", "brown", "light", "dark", "heavy",
    "artificial", "natural", "organic", "conventional",
    "around", "the", "world", "example", "avoid", "see",
    "ingredient", "ingredients", "method", "technique",
    "dishes", "foods", "dishes", "appetizers", "desserts",
    "breakfast", "lunch", "dinner", "snack", "meal",
    "crust", "crusts", "sauce", "sauces", "rub", "rubs",
    "powder", "starch", "thickener",
    "fall", "spring", "winter", "summer", "season", "seasons",
    "august", "september", "october", "november", "december",
    "january", "february", "march", "april", "may", "june", "july",
    "but", "catalogs", "color", "other", "then", "which", "with", "you",
    "many", "most", "first", "done", "off", "half", "good", "nice",
    "rich", "hot", "cold", "warm", "cooling", "warming", "refreshing",
    "ripe", "unripe", "young", "old", "new", "soft", "hard", "dry",
    "wet", "fatty", "lean", "mild", "strong", "sweet", "sour", "salty",
    "bitter", "umami", "texture", "heat", "crunch", "crunchy", "flaky",
    "velvety", "greasy", "grainy", "luxurious", "heartier", "meatier",
    "fattier", "lighter", "stronger", "sweeter", "deeper", "deeper flavor"
   ] : List String).map String.toList

/-- `NON_FOOD_SUBSTRINGS` (filter_non_food_and_isolated.py:48-63). -/
def nonFoodSubstrings : List Str :=
  ([" as a ", " as crust", " as dessert", " see ", " see also",
    " dishes", " foods", " appetizers", " cuisines", " beverages",
    "ingredient", "method", " to ", " for granted", " and other ",
    " and/or ", "brined first", "for braising", "for poultry", "for sushi",
    "café ", "cafe ", " bistro", " restaurant", " grill", " room",
    " washington", " vienna", " hoboken", " brasserie", " eat place",
    " he said", " i like", " i recently", " i use the", " which i",
    " which is", " which makes", " which means", " which produce",
    " which they", " which adds", " we tasted", " you can", " you wouldn't",
    " then add", " then wipe", " throw it out", " to finish this",
    " have two favorite", " knew it", " of course", " in terms of",
    " so many childhood", " spread them out", " used the husks",
    " using smoked salt", " virtually all", " wash greens",
    " while in large", " your life", "—david", "— "
   ] : List String).map String.toList

/-- `PLACE_NAMES` (filter_non_food_and_isolated.py:66-72). -/
def placeNames : List Str :=
  (["alabama", "arizona", "california", "florida", "idaho", "massachusetts",
    "new jersey", "new york", "oregon", "sonoma", "vermont", "virginia",
    "washington", "rome", "japan", "spain", "france", "tuscan", "venetian",
    "new england", "southern", "northern", "eastern", "peking", "szechuan",
    "boston", "pocantico"] : List String).map String.toList

/-- `RESTAURANT_PATTERNS` (filter_non_food_and_isolated.py:75-86). -/
def restaurantPatterns : List Str :=
  (["café boulud", "café annie", "café gray", "café juanita",
    "le bernardin", "union square café", "eleven madison park",
    "daniel", "nobu", "jean georges", "charlie trotter",
    "felidia", "san domenico", "frontera grill", "topolobampo",
    "everest", "farallon", "gary danko", "gilt", "imperial fez",
    "kinkead", "la côte brasserie", "locke-ober", "monday room",
    "naha", "osteria mozza", "payard", "rover's", "sanford",
    "trade lake", "t'afia", "tía pol", "veritas", "vij's",
    "zuni café", "zafra", "cucharamama", "brasserie jo",
    "colvin run", "citronelle", "esca", "hook", "cashion"
   ] : List String).map String.toList

/-- `NON_FOOD_PHRASES` (filter_non_food_and_isolated.py:89-112). -/
def nonFoodPhrases : List Str :=
  (["around the world", "as a kid", "as a crust", "as crust",
    "as dessert", "as fruit crystals to", "autumn and dried",
    "barbecue dishes", "barbecued foods", "bitter / winter",
    "black or kalamata", "black or kidney", "black or red",
    "broiled dishes", "calf's liver see liver", "cook al dente",
    "cooked and raw", "fines herbes ingredient", "fruits and fruit sauces",
    "goat / sheep cheese", "green pasta", "guindilla or piquillo",
    "ice wine wine", "or bomba", "or carnaroli", "or piquillo",
    "or raisins", "or roasted", "or stinky", "see also",
    "serve", "seedless", "baby round", "café con leche",
    "blueberries for the summer", "name of the dish", "it a deep",
    "it's their smell", "which adds color", "fresh shell",
    " and will", "of all vegetables", "of the brine", "of course",
    "fruits and fruit juices", "vegetables and root vegetables",
    "vegetables and vegetable juices", "meats and meat loaf",
    "some high-fiber vitamin", "some water", "so many childhood",
    "sour notes enhance bitterness", "to finish this dish",
    "then wipe off the", "these short", "used the husks",
    "using smoked salt provides", "virtually all vegetables",
    "was seared well", "we tasted it", "which i pair with",
    "which produce a juice", "which they added to",
    "while in large doses", "you wouldn't", "your life"
   ] : List String).map String.toList

/-- The standalone-descriptor tuple at filter_non_food_and_isolated.py:165-168. -/
def standaloneDescriptors : List Str :=
  (["baby", "back", "balm", "belly", "bitter", "black",
    "brown", "dark", "light", "red", "green", "white",
    "yellow", "heavy", "fall", "spring", "summer", "winter"]
   : List String).map String.toList

/-- `is_food_item` (filter_non_food_and_isolated.py:115-170).  The `" as a "`
test follows Python's `or`/`and` precedence:
`A or (B and C)` with `A = " as a " in lower`, `B = " as " in lower`,
`C = " as crust" in lower`. -/
def is_food_item (nodeId : Str) : Bool :=
  let lower := pyStrip (pyLower nodeId)
  if nonFoodWords.contains lower || nonFoodPhrases.contains lower then false
  else if placeNames.contains lower then false
  else if restaurantPatterns.any (fun r => containsSub lower r) then false
  else if (pyWords lower).length = 1 && nonFoodWords.contains lower then false
  else if nonFoodPhrases.any (fun p => containsSub lower p) then false
  else if nonFoodSubstrings.any (fun p => containsSub lower p) then false
  else if containsSub lower " or ".toList || containsSub lower " / ".toList then false
  else if containsSub lower " see ".toList || "see ".toList.isPrefixOf lower then false
  else if containsSub lower " as a ".toList ||
      (containsSub lower " as ".toList && containsSub lower " as crust".toList) then false
  else if "and ".toList.isPrefixOf lower || "and/or".toList.isPrefixOf lower then false
  else if lower.length < 3 then false
  else if standaloneDescriptors.contains lower then false
  else true

/-- The Invariant Enforcer: `filter_non_food_and_isolated.main`
(filter_non_food_and_isolated.py:188-219): drop isolated nodes, drop
non-food nodes, drop edges touching dropped nodes, then drop the newly
isolated nodes. -/
def enforcePass (g : Graph) : Graph :=
  let nodesWithEdges := g.nodes.filter
    (fun n => g.edges.any (fun e => e.source = n.id || e.target = n.id))
  let foodIds := (nodesWithEdges.filter (fun n => is_food_item n.id)).map Node.id
  let nodesFood := nodesWithEdges.filter (fun n => foodIds.contains n.id)
  let edgesFood := g.edges.filter
    (fun e => foodIds.contains e.source && foodIds.contains e.target)
  let nodesFinal := nodesFood.filter
    (fun n => edgesFood.any (fun e => e.source = n.id || e.target = n.id))
  ⟨nodesFinal, edgesFood⟩

/-- Node degree with respect to a graph's edge list. -/
def degree (g : Graph) (id : Str) : Nat :=
  (g.edges.filter (fun e => e.source = id || e.target = id)).length

end CulinaryCosmos

namespace CulinaryCosmos

/-! ### Derived notions and concrete scenario inputs used by the claims -/

/-- The edge invariant of the spec: no self-loop, endpoints present as node
ids, and at most one edge per unordered pair. -/
def edgeInvariant (g : Graph) : Prop :=
  (∀ e ∈ g.edges, e.source ≠ e.target ∧
    e.source ∈ g.nodes.map Node.id ∧ e.target ∈ g.nodes.map Node.id) ∧
  (g.edges.map (fun e => sortPair e.source e.target)).Nodup

/-- The Graph Builder fold of `extract_from_pdf` (lines 249-254) over a
stream of observations `(current_ingredient, ingredient, level)`. -/
def obsFold (pl : List (Str × List Str) × List ((Str × Str) × Nat))
    (obs : List (Str × Str × Nat)) :
    List (Str × List Str) × List ((Str × Str) × Nat) :=
  obs.foldl (fun pl o => recordObs pl.1 pl.2 o.1 o.2.1 o.2.2) pl

/-- Guard of the observation-recording step: the parsed ingredient is
nonempty and differs from the current ingredient. -/
def obsActive (o : Str × Str × Nat) : Bool := !o.2.1.isEmpty && o.2.1 ≠ o.1

/-- Unordered pair key of an observation. -/
def obsKey (o : Str × Str × Nat) : Str × Str := sortPair o.1 o.2.1

/-- Observations of `obs` contributing to the unordered pair `{a, b}`. -/
def contribOf (obs : List (Str × Str × Nat)) (a b : Str) : List (Str × Str × Nat) :=
  obs.filter (fun o => obsActive o && (obsKey o = sortPair a b : Bool))

/-- Maximum of a list of levels (all levels are ≥ 1 in the pipeline). -/
def listMax (l : List Nat) : Nat := l.foldl max 0

/-- Unordered key of an edge. -/
def edgeKey (e : Edge) : Str × Str := sortPair e.source e.target

/-- `b in pairings[a]` on the pairings dict. -/
def pairMem (p : List (Str × List Str)) (a b : Str) : Bool :=
  ((alookup a p).getD []).contains b

/-- C1/C9/C2/C7/C8 scenario inputs. -/
def c1Lines : List (Str × Bool) :=
  [("GARLIC".toList, false), ("onion, olive oil, *basil".toList, false)]

def c2CexGraph : Graph :=
  ⟨[⟨"cheese, apricots".toList, "cheese, apricots".toList, none⟩,
    ⟨"pork".toList, "pork".toList, none⟩],
   [⟨"cheese, apricots".toList, "pork".toList, 1, 1, false⟩]⟩

def c2WitnessGraph : Graph :=
  ⟨[⟨"apricots".toList, "apricots".toList, none⟩,
    ⟨"pork".toList, "pork".toList, none⟩],
   [⟨"apricots".toList, "pork".toList, 2, 2, false⟩]⟩

def c5ScenarioGraph : Graph :=
  ⟨[⟨"pork".toList, "pork".toList, none⟩, ⟨"serve".toList, "serve".toList, none⟩],
   [⟨"pork".toList, "serve".toList, 1, 1, false⟩]⟩

def c5WitnessGraph : Graph :=
  ⟨[⟨"pork".toList, "pork".toList, none⟩, ⟨"beef".toList, "beef".toList, none⟩],
   [⟨"pork".toList, "beef".toList, 2, 2, false⟩]⟩

def c7Graph : Graph :=
  ⟨[⟨"apricots".toList, "apricots".toList, none⟩,
    ⟨"apricots, dried".toList, "apricots, dried".toList, none⟩,
    ⟨"pork".toList, "pork".toList, none⟩],
   [⟨"apricots".toList, "pork".toList, 1, 1, false⟩,
    ⟨"apricots, dried".toList, "pork".toList, 3, 3, false⟩]⟩

def c8CexInput : Str := "a —(x) b".toList

def c9State : ExtractState := { initExtractState with inAffinities := true }

def c9Line : Str × Bool := ("achiote + pork + sour orange".toList, false)

/-- Invariant of the `canon_to_node` accumulator: every entry maps a key to a
node whose id and label are that key and whose category is present, and the
keys are distinct. -/
def CtnInv (acc : List (Str × Node)) : Prop :=
  (∀ kv ∈ acc, kv.2.id = kv.1 ∧ kv.2.label = kv.1 ∧ ∃ c, kv.2.category = some c) ∧
  (acc.map Prod.fst).Nodup

/-- Invariant of the `edge_data` accumulator: every key is a strictly
ordered pair of canonical ids present in `canon_to_node`, and keys are
distinct. -/
def EdInv (ctn : List (Str × Node)) (acc : List ((Str × Str) × (Nat × Nat))) : Prop :=
  (∀ kv ∈ acc, (alookup kv.1.1 ctn).isSome ∧ (alookup kv.1.2 ctn).isSome ∧
    lexLtB kv.1.1 kv.1.2 = true) ∧
  (acc.map Prod.fst).Nodup

/-- Invariant of the pairings dict maintained by the extraction loop:
symmetric, irreflexive, with distinct keys. -/
def PairInv (p : List (Str × List Str)) : Prop :=
  (∀ a b : Str, pairMem p a b = true → pairMem p b a = true) ∧
  (∀ a : Str, ¬ pairMem p a a = true) ∧
  (p.map Prod.fst).Nodup

/-- The six characters the normalizer substitutions react to. -/
def isMarker (c : Char) : Bool :=
  c = '(' || c = ')' || c = '[' || c = ']' || c = '—' || c = '*'

end CulinaryCosmos

namespace CulinaryCosmos

/-! ### Basic lemmas: lexicographic order, sorted pairs, association lists -/

theorem lexLtB_irrefl (a : Str) : lexLtB a a = false := by
  induction a with
  | nil => rfl
  | cons c t ih => simp [lexLtB, ih]

theorem charEqOfToNat {a b : Char} (h : a.toNat = b.toNat) : a = b :=
  Char.ext (UInt32.ext h)

theorem lexLtB_asymm {a b : Str} (h : lexLtB a b = true) : lexLtB b a = false := by
  induction a generalizing b with
  | nil =>
    cases b with
    | nil => rfl
    | cons y t => rfl
  | cons x s ih =>
    cases b with
    | nil => simp [lexLtB] at h
    | cons y t =>
      simp only [lexLtB] at h ⊢
      rcases Nat.lt_trichotomy x.toNat y.toNat with hlt | heq | hgt
      · rw [if_neg (by omega), if_pos hlt]
      · rw [heq] at h ⊢
        rw [if_neg (by omega), if_neg (by omega)] at h ⊢
        exact ih h
      · rw [if_neg (by omega), if_pos hgt] at h
        cases h

theorem lexLtB_connex {a b : Str} (h : a ≠ b) :
    lexLtB a b = true ∨ lexLtB b a = true := by
  induction a generalizing b with
  | nil =>
    cases b with
    | nil => exact absurd rfl h
    | cons y t => left; rfl
  | cons x s ih =>
    cases b with
    | nil => right; rfl
    | cons y t =>
      simp only [lexLtB]
      rcases Nat.lt_trichotomy x.toNat y.toNat with hlt | heq | hgt
      · left; rw [if_pos hlt]
      · have hxy : x = y := charEqOfToNat heq
        subst hxy
        have hst : s ≠ t := fun hh => h (by rw [hh])
        rw [if_neg (by omega), if_neg (by omega), if_neg (by omega), if_neg (by omega)]
        exact ih hst
      · right; rw [if_pos hgt]

theorem lexLtB_ne {a b : Str} (h : lexLtB a b = true) : a ≠ b := by
  intro he; subst he; rw [lexLtB_irrefl a] at h; cases h

theorem sortPair_cases (a b : Str) : sortPair a b = (a, b) ∨ sortPair a b = (b, a) := by
  unfold sortPair; split
  · right; rfl
  · left; rfl

theorem sortPair_comm (a b : Str) : sortPair a b = sortPair b a := by
  by_cases hab : a = b
  · subst hab; rfl
  · unfold sortPair
    rcases lexLtB_connex hab with h | h
    · rw [if_neg (by rw [lexLtB_asymm h]; exact fun hh => nomatch hh), if_pos h]
    · rw [if_pos h, if_neg (by rw [lexLtB_asymm h]; exact fun hh => nomatch hh)]

theorem sortPair_lt {a b : Str} (h : a ≠ b) :
    lexLtB (sortPair a b).1 (sortPair a b).2 = true := by
  unfold sortPair
  rcases hba : lexLtB b a with _ | _
  · simp only [Bool.false_eq_true, if_false]
    rcases lexLtB_connex h with h1 | h1
    · exact h1
    · rw [h1] at hba; cases hba
  · simpa using hba

theorem sortPair_ne {a b : Str} (h : a ≠ b) : (sortPair a b).1 ≠ (sortPair a b).2 :=
  lexLtB_ne (sortPair_lt h)

theorem sortPair_fst_eq_of_lt {a b : Str} (h : lexLtB a b = true) :
    sortPair a b = (a, b) := by
  unfold sortPair
  rw [lexLtB_asymm h]
  simp

section Assoc

variable {κ ν : Type} [DecidableEq κ]

theorem alookup_aset_self (k : κ) (v : ν) (l : List (κ × ν)) :
    alookup k (aset k v l) = some v := by
  induction l with
  | nil => simp [aset, alookup]
  | cons kv t ih =>
    obtain ⟨k', v'⟩ := kv
    by_cases h : k = k'
    · subst h; simp [aset, alookup]
    · simp [aset, alookup, h, ih]

theorem alookup_aset_ne {k k' : κ} (h : k ≠ k') (v : ν) (l : List (κ × ν)) :
    alookup k (aset k' v l) = alookup k l := by
  induction l with
  | nil => simp [aset, alookup, h]
  | cons kv t ih =>
    obtain ⟨k2, v2⟩ := kv
    by_cases h2 : k' = k2
    · subst h2; simp [aset, alookup, h, ih]
    · by_cases h3 : k = k2
      · simp [aset, alookup, h2, h3]
      · simp [aset, alookup, h2, h3, ih]

theorem aset_keys_mem (k : κ) (v : ν) (l : List (κ × ν)) (x : κ) :
    x ∈ (aset k v l).map Prod.fst ↔ x = k ∨ x ∈ l.map Prod.fst := by
  induction l with
  | nil => simp [aset]
  | cons kv t ih =>
    obtain ⟨k', v'⟩ := kv
    by_cases h : k = k'
    · subst h; simp [aset]
    · simp only [aset, if_neg h, List.map_cons, List.mem_cons, ih]; tauto

theorem aset_keys_nodup (k : κ) (v : ν) (l : List (κ × ν))
    (h : (l.map Prod.fst).Nodup) : ((aset k v l).map Prod.fst).Nodup := by
  induction l with
  | nil => simp [aset]
  | cons kv t ih =>
    obtain ⟨k', v'⟩ := kv
    by_cases h2 : k = k'
    · subst h2; simpa [aset] using h
    · simp only [List.map_cons, List.nodup_cons] at h
      simp only [aset, if_neg h2, List.map_cons, List.nodup_cons]
      refine ⟨fun hm => ?_, ih h.2⟩
      rw [aset_keys_mem] at hm
      rcases hm with hm | hm
      · exact h2 hm.symm
      · exact h.1 hm

theorem alookup_isSome_iff (k : κ) (l : List (κ × ν)) :
    (alookup k l).isSome ↔ k ∈ l.map Prod.fst := by
  induction l with
  | nil => simp [alookup]
  | cons kv t ih =>
    obtain ⟨k', v'⟩ := kv
    by_cases h : k = k'
    · simp [alookup, h]
    · simp [alookup, h, ih]

theorem alookup_eq_none_iff (k : κ) (l : List (κ × ν)) :
    alookup k l = none ↔ k ∉ l.map Prod.fst := by
  rw [← alookup_isSome_iff, Option.isSome_iff_ne_none]
  tauto

theorem aset_absent (k : κ) (v : ν) (l : List (κ × ν))
    (h : alookup k l = none) : aset k v l = l ++ [(k, v)] := by
  induction l with
  | nil => simp [aset]
  | cons kv t ih =>
    obtain ⟨k', v'⟩ := kv
    simp only [alookup] at h
    by_cases h2 : k = k'
    · simp [h2] at h
    · simp only [aset, if_neg h2, List.cons_append]
      rw [ih (by simpa [h2] using h)]

theorem alookup_of_mem {k : κ} {v : ν} {l : List (κ × ν)}
    (hm : (k, v) ∈ l) (hnd : (l.map Prod.fst).Nodup) : alookup k l = some v := by
  induction l with
  | nil => cases hm
  | cons kv t ih =>
    obtain ⟨k', v'⟩ := kv
    simp only [List.map_cons, List.nodup_cons] at hnd
    rcases List.mem_cons.mp hm with he | hm2
    · rw [show k = k' from congrArg Prod.fst he, show v = v' from congrArg Prod.snd he]
      simp [alookup]
    · have hk : k ≠ k' := by
        intro hh; subst hh
        exact hnd.1 (List.mem_map.mpr ⟨(k, v), hm2, rfl⟩)
      simp [alookup, hk, ih hm2 hnd.2]

theorem alookup_mem {k : κ} {v : ν} {l : List (κ × ν)}
    (h : alookup k l = some v) : (k, v) ∈ l := by
  induction l with
  | nil => cases h
  | cons kv t ih =>
    obtain ⟨k', v'⟩ := kv
    simp only [alookup] at h
    by_cases h2 : k = k'
    · rw [if_pos h2] at h
      subst h2
      simp only [Option.some_inj] at h
      subst h
      exact List.mem_cons_self _ _
    · rw [if_neg h2] at h
      exact List.mem_cons_of_mem _ (ih h)


end Assoc

end CulinaryCosmos

namespace CulinaryCosmos

/-! ### Lemmas about `build_edges` -/

theorem beFold_seen_eq (lv : List ((Str × Str) × Nat)) :
    ∀ (ps : List (Str × Str)) (acc : List (Str × Str) × List Edge),
      acc.1 = acc.2.map edgeKey →
      (ps.foldl (beStep lv) acc).1 = (ps.foldl (beStep lv) acc).2.map edgeKey := by
  intro ps
  induction ps with
  | nil => intro acc h; exact h
  | cons ab t ih =>
    intro acc h
    simp only [List.foldl_cons]
    apply ih
    unfold beStep
    split
    · exact h
    · simp [h, edgeKey, beEdge]

theorem beFold_seen_nodup (lv : List ((Str × Str) × Nat)) :
    ∀ (ps : List (Str × Str)) (acc : List (Str × Str) × List Edge),
      acc.1.Nodup → (ps.foldl (beStep lv) acc).1.Nodup := by
  intro ps
  induction ps with
  | nil => intro acc h; exact h
  | cons ab t ih =>
    intro acc h
    simp only [List.foldl_cons]
    apply ih
    unfold beStep
    split <;> rename_i hc
    · exact h
    · simp only [Bool.not_eq_true] at hc
      have hc2 : sortPair ab.1 ab.2 ∉ acc.1 := by simpa using hc
      simpa [List.nodup_append] using ⟨h, hc2⟩

theorem beFold_seen_mem (lv : List ((Str × Str) × Nat)) :
    ∀ (ps : List (Str × Str)) (acc : List (Str × Str) × List Edge) (k : Str × Str),
      (k ∈ (ps.foldl (beStep lv) acc).1 ↔
        k ∈ acc.1 ∨ ∃ ab ∈ ps, sortPair ab.1 ab.2 = k) := by
  intro ps
  induction ps with
  | nil => intro acc k; simp
  | cons ab t ih =>
    intro acc k
    simp only [List.foldl_cons, ih, List.mem_cons]
    unfold beStep
    split <;> rename_i hc
    · have hc2 : sortPair ab.1 ab.2 ∈ acc.1 := by simpa using hc
      constructor
      · rintro (h | h)
        · exact Or.inl h
        · exact Or.inr ⟨_, Or.inr h.choose_spec.1, h.choose_spec.2⟩
      · rintro (h | ⟨x, hx | hx, he⟩)
        · exact Or.inl h
        · subst hx; rw [← he] at *; exact Or.inl hc2
        · exact Or.inr ⟨x, hx, he⟩
    · simp only [List.mem_append, List.mem_singleton]
      constructor
      · rintro ((h | h) | h)
        · exact Or.inl h
        · exact Or.inr ⟨ab, Or.inl rfl, h.symm⟩
        · exact Or.inr ⟨_, Or.inr h.choose_spec.1, h.choose_spec.2⟩
      · rintro (h | ⟨x, hx | hx, he⟩)
        · exact Or.inl (Or.inl h)
        · subst hx; exact Or.inl (Or.inr he.symm)
        · exact Or.inr ⟨x, hx, he⟩

theorem beFold_edge_mem (lv : List ((Str × Str) × Nat)) :
    ∀ (ps : List (Str × Str)) (acc : List (Str × Str) × List Edge) (e : Edge),
      e ∈ (ps.foldl (beStep lv) acc).2 →
      e ∈ acc.2 ∨ ∃ ab ∈ ps, e = beEdge lv ab := by
  intro ps
  induction ps with
  | nil => intro acc e h; exact Or.inl h
  | cons ab t ih =>
    intro acc e h
    simp only [List.foldl_cons] at h
    rcases ih _ _ h with h2 | ⟨x, hx, he⟩
    · unfold beStep at h2
      split at h2
      · exact Or.inl h2
      · simp only [List.mem_append, List.mem_singleton] at h2
        rcases h2 with h2 | h2
        · exact Or.inl h2
        · exact Or.inr ⟨ab, List.mem_cons_self _ _, h2⟩
    · exact Or.inr ⟨x, List.mem_cons_of_mem _ hx, he⟩

theorem build_edges_keys_nodup (p : List (Str × List Str))
    (lv : List ((Str × Str) × Nat)) :
    ((build_edges p lv).map edgeKey).Nodup := by
  unfold build_edges
  rw [← beFold_seen_eq lv _ _ (by simp)]
  exact beFold_seen_nodup lv _ _ (by simp)

theorem build_edges_key_mem (p : List (Str × List Str))
    (lv : List ((Str × Str) × Nat)) (k : Str × Str) :
    k ∈ (build_edges p lv).map edgeKey ↔
      ∃ ab ∈ pairingItems p, sortPair ab.1 ab.2 = k := by
  unfold build_edges
  rw [← beFold_seen_eq lv _ _ (by simp), beFold_seen_mem]
  simp

theorem build_edges_edge_mem {p : List (Str × List Str)}
    {lv : List ((Str × Str) × Nat)} {e : Edge} (h : e ∈ build_edges p lv) :
    ∃ ab ∈ pairingItems p, e = beEdge lv ab := by
  unfold build_edges at h
  rcases beFold_edge_mem lv _ _ _ h with h2 | h2
  · simp at h2
  · exact h2

/-- Generic: in a list whose images under `f` are distinct, the filter at the
image of a member is that single member. -/
theorem filterEqOfNodupMap {α β : Type} [DecidableEq β] {l : List α} {f : α → β}
    (hnd : (l.map f).Nodup) {a : α} (ha : a ∈ l) {k : β} (hk : f a = k) :
    l.filter (fun x => (f x = k : Bool)) = [a] := by
  induction l with
  | nil => cases ha
  | cons x t ih =>
    simp only [List.map_cons, List.nodup_cons] at hnd
    rcases List.mem_cons.mp ha with he | hm
    · subst he
      rw [List.filter_cons_of_pos (by simp [hk])]
      have : t.filter (fun x => (f x = k : Bool)) = [] := by
        rw [List.filter_eq_nil_iff]
        intro b hb
        simp only [decide_eq_true_eq]
        intro hfb
        exact hnd.1 (by rw [hk, ← hfb]; exact List.mem_map.mpr ⟨b, hb, rfl⟩)
      rw [this]
    · have hx : ¬ (f x = k) := by
        intro hfx
        exact hnd.1 (by rw [hfx, ← hk]; exact List.mem_map.mpr ⟨a, hm, rfl⟩)
      rw [List.filter_cons_of_neg (by simpa using hx)]
      exact ih hnd.2 hm

end CulinaryCosmos

namespace CulinaryCosmos

/-! ### Lemmas about the Graph Builder fold -/

theorem pairMem_addPairing (p : List (Str × List Str)) (x y a b : Str) :
    (pairMem (addPairing p x y) a b = true ↔
      pairMem p a b = true ∨ (a = x ∧ b = y)) := by
  unfold pairMem addPairing
  by_cases hax : a = x
  · subst hax
    rw [alookup_aset_self]
    by_cases hy : ((alookup a p).getD []).contains y
    · rw [if_pos hy]
      constructor
      · exact fun h => Or.inl h
      · rintro (h | ⟨-, rfl⟩)
        · exact h
        · exact hy
    · rw [if_neg hy]
      have hmem : ∀ (l : List Str) (c : Str), l.contains c = true ↔ c ∈ l := by
        intro l c; simp
      rw [hmem, hmem]
      simp only [Option.getD_some, List.mem_append, List.mem_singleton]
      tauto
  · rw [alookup_aset_ne hax]
    constructor
    · exact fun h => Or.inl h
    · rintro (h | ⟨h, -⟩)
      · exact h
      · exact absurd h hax

theorem pairMem_addPair2 (p : List (Str × List Str)) (x y a b : Str) :
    (pairMem (addPair2 p x y) a b = true ↔
      pairMem p a b = true ∨ (a = x ∧ b = y) ∨ (a = y ∧ b = x)) := by
  unfold addPair2
  rw [pairMem_addPairing, pairMem_addPairing]
  tauto

theorem addPairing_keys_mem (p : List (Str × List Str)) (x y a : Str) :
    a ∈ (addPairing p x y).map Prod.fst ↔ a = x ∨ a ∈ p.map Prod.fst := by
  unfold addPairing
  exact aset_keys_mem _ _ _ _

theorem addPairing_keys_nodup (p : List (Str × List Str)) (x y : Str)
    (h : (p.map Prod.fst).Nodup) : ((addPairing p x y).map Prod.fst).Nodup :=
  aset_keys_nodup _ _ _ h

theorem obsFold_levels (obs : List (Str × Str × Nat)) :
    ∀ (p : List (Str × List Str)) (l : List ((Str × Str) × Nat)) (k : Str × Str),
      alookup k (obsFold (p, l) obs).2 =
        (obs.filter (fun o => obsActive o && (obsKey o = k : Bool))).foldl
          (fun acc o => some (max (acc.getD 1) o.2.2)) (alookup k l) := by
  induction obs with
  | nil => intro p l k; rfl
  | cons o t ih =>
    intro p l k
    show alookup k (obsFold (recordObs p l o.1 o.2.1 o.2.2) t).2 = _
    unfold recordObs
    by_cases hact : obsActive o = true
    · rw [if_pos (by simpa [obsActive] using hact)]
      by_cases hk : obsKey o = k
      · rw [List.filter_cons_of_pos (by simp [hact, hk])]
        rw [ih]
        unfold bumpLevel
        rw [show sortPair o.1 o.2.1 = k from hk]
        rw [alookup_aset_self]
        rfl
      · rw [List.filter_cons_of_neg (by simp [hk])]
        rw [ih]
        unfold bumpLevel
        rw [show sortPair o.1 o.2.1 = obsKey o from rfl]
        rw [alookup_aset_ne (fun h => hk h.symm)]
    · rw [if_neg (by simpa [obsActive] using hact)]
      rw [List.filter_cons_of_neg (by simp [hact])]
      exact ih p l k

theorem obsFold_pairMem (obs : List (Str × Str × Nat)) :
    ∀ (p : List (Str × List Str)) (l : List ((Str × Str) × Nat)) (a b : Str),
      (pairMem (obsFold (p, l) obs).1 a b = true ↔
        pairMem p a b = true ∨ ∃ o ∈ obs, obsActive o = true ∧
          ((o.1 = a ∧ o.2.1 = b) ∨ (o.1 = b ∧ o.2.1 = a))) := by
  induction obs with
  | nil => intro p l a b; simp [obsFold]
  | cons o t ih =>
    intro p l a b
    show (pairMem (obsFold (recordObs p l o.1 o.2.1 o.2.2) t).1 a b = true ↔ _)
    unfold recordObs
    by_cases hact : obsActive o = true
    · rw [if_pos (by simpa [obsActive] using hact)]
      rw [ih, pairMem_addPair2]
      constructor
      · rintro ((h | h | h) | h)
        · exact Or.inl h
        · exact Or.inr ⟨o, List.mem_cons_self _ _, hact, Or.inl ⟨h.1.symm, h.2.symm⟩⟩
        · exact Or.inr ⟨o, List.mem_cons_self _ _, hact, Or.inr ⟨h.2.symm, h.1.symm⟩⟩
        · obtain ⟨x, hx, hh⟩ := h
          exact Or.inr ⟨x, List.mem_cons_of_mem _ hx, hh⟩
      · rintro (h | ⟨x, hx, hh⟩)
        · exact Or.inl (Or.inl h)
        · rcases List.mem_cons.mp hx with he | hm
          · subst he
            rcases hh.2 with ⟨h1, h2⟩ | ⟨h1, h2⟩
            · exact Or.inl (Or.inr (Or.inl ⟨h1.symm, h2.symm⟩))
            · exact Or.inl (Or.inr (Or.inr ⟨h2.symm, h1.symm⟩))
          · exact Or.inr ⟨x, hm, hh⟩
    · rw [if_neg (by simpa [obsActive] using hact)]
      rw [ih]
      constructor
      · rintro (h | ⟨x, hx, hh⟩)
        · exact Or.inl h
        · exact Or.inr ⟨x, List.mem_cons_of_mem _ hx, hh⟩
      · rintro (h | ⟨x, hx, hh⟩)
        · exact Or.inl h
        · rcases List.mem_cons.mp hx with he | hm
          · subst he; exact absurd hh.1 hact
          · exact Or.inr ⟨x, hm, hh⟩

theorem obsFold_keys_mem (obs : List (Str × Str × Nat)) :
    ∀ (p : List (Str × List Str)) (l : List ((Str × Str) × Nat)) (x : Str),
      (x ∈ (obsFold (p, l) obs).1.map Prod.fst ↔
        x ∈ p.map Prod.fst ∨ ∃ o ∈ obs, obsActive o = true ∧ (x = o.1 ∨ x = o.2.1)) := by
  induction obs with
  | nil => intro p l x; simp [obsFold]
  | cons o t ih =>
    intro p l x
    show (x ∈ (obsFold (recordObs p l o.1 o.2.1 o.2.2) t).1.map Prod.fst ↔ _)
    unfold recordObs
    by_cases hact : obsActive o = true
    · rw [if_pos (by simpa [obsActive] using hact)]
      rw [ih]
      unfold addPair2
      rw [addPairing_keys_mem, addPairing_keys_mem]
      constructor
      · rintro ((h | h | h) | h)
        · exact Or.inr ⟨o, List.mem_cons_self _ _, hact, Or.inr h⟩
        · exact Or.inr ⟨o, List.mem_cons_self _ _, hact, Or.inl h⟩
        · exact Or.inl h
        · obtain ⟨y, hy, hh⟩ := h
          exact Or.inr ⟨y, List.mem_cons_of_mem _ hy, hh⟩
      · rintro (h | ⟨y, hy, hh⟩)
        · exact Or.inl (Or.inr (Or.inr h))
        · rcases List.mem_cons.mp hy with he | hm
          · subst he
            rcases hh.2 with h1 | h1
            · exact Or.inl (Or.inr (Or.inl h1))
            · exact Or.inl (Or.inl h1)
          · exact Or.inr ⟨y, hm, hh⟩
    · rw [if_neg (by simpa [obsActive] using hact)]
      rw [ih]
      constructor
      · rintro (h | ⟨y, hy, hh⟩)
        · exact Or.inl h
        · exact Or.inr ⟨y, List.mem_cons_of_mem _ hy, hh⟩
      · rintro (h | ⟨y, hy, hh⟩)
        · exact Or.inl h
        · rcases List.mem_cons.mp hy with he | hm
          · subst he; exact absurd hh.1 hact
          · exact Or.inr ⟨y, hm, hh⟩

theorem pairMem_pairingItems {p : List (Str × List Str)} {a b : Str}
    (h : pairMem p a b = true) : (a, b) ∈ pairingItems p := by
  unfold pairMem at h
  rcases hl : alookup a p with _ | bs
  · rw [hl] at h; simp at h
  · rw [hl] at h
    have h2 : b ∈ bs := by simpa using h
    unfold pairingItems
    rw [List.mem_flatMap]
    exact ⟨(a, bs), alookup_mem hl, List.mem_map.mpr ⟨b, h2, rfl⟩⟩

theorem foldOptMax_some (t : List Nat) :
    ∀ a : Nat, t.foldl (fun (acc : Option Nat) x => some (max (acc.getD 1) x)) (some a)
      = some (t.foldl max a) := by
  induction t with
  | nil => intro a; rfl
  | cons x s ih => intro a; simp only [List.foldl_cons, Option.getD_some]; exact ih _

theorem foldOptMax_none {lst : List Nat} (hne : lst ≠ []) (h1 : ∀ x ∈ lst, 1 ≤ x) :
    lst.foldl (fun (acc : Option Nat) x => some (max (acc.getD 1) x)) none
      = some (listMax lst) := by
  cases lst with
  | nil => exact absurd rfl hne
  | cons x s =>
    simp only [List.foldl_cons, Option.getD_none]
    rw [foldOptMax_some]
    unfold listMax
    simp only [List.foldl_cons]
    rw [Nat.max_eq_right (h1 x (List.mem_cons_self _ _)), Nat.zero_max]

end CulinaryCosmos

namespace CulinaryCosmos

theorem obsFold_keys_nodup (obs : List (Str × Str × Nat)) :
    ∀ (p : List (Str × List Str)) (l : List ((Str × Str) × Nat)),
      (p.map Prod.fst).Nodup → ((obsFold (p, l) obs).1.map Prod.fst).Nodup := by
  induction obs with
  | nil => intro p l h; exact h
  | cons o t ih =>
    intro p l h
    show ((obsFold (recordObs p l o.1 o.2.1 o.2.2) t).1.map Prod.fst).Nodup
    unfold recordObs
    split
    · exact ih _ _ (addPairing_keys_nodup _ _ _ (addPairing_keys_nodup _ _ _ h))
    · exact ih _ _ h

theorem pairingItems_pairMem {p : List (Str × List Str)} {a b : Str}
    (hnd : (p.map Prod.fst).Nodup) (h : (a, b) ∈ pairingItems p) :
    pairMem p a b = true := by
  unfold pairingItems at h
  rw [List.mem_flatMap] at h
  obtain ⟨kv, hkv, hm⟩ := h
  rw [List.mem_map] at hm
  obtain ⟨b', hb', he⟩ := hm
  have h1 : kv.1 = a := congrArg Prod.fst he
  have h2 : b' = b := congrArg Prod.snd he
  subst h2
  have : alookup a p = some kv.2 := by
    rw [← h1]
    exact alookup_of_mem (by rw [← Prod.mk.eta (p := kv)] at hkv; exact hkv) hnd
  unfold pairMem
  rw [this]
  simpa using hb'

/-- The weight attached to each emitted edge key by `build_edges`. -/
theorem build_edges_keyed_mem (p : List (Str × List Str))
    (lv : List ((Str × Str) × Nat)) (k : Str × Str) (w : Nat) :
    ((k, w) ∈ (build_edges p lv).map (fun e => (edgeKey e, e.weight)) ↔
      k ∈ (build_edges p lv).map edgeKey ∧ w = (alookup k lv).getD 1) := by
  constructor
  · intro h
    rw [List.mem_map] at h
    obtain ⟨e, he, hpe⟩ := h
    have hk : edgeKey e = k := congrArg Prod.fst hpe
    have hw : e.weight = w := congrArg Prod.snd hpe
    refine ⟨List.mem_map.mpr ⟨e, he, hk⟩, ?_⟩
    obtain ⟨ab, -, hshape⟩ := build_edges_edge_mem he
    rw [← hw, hshape]
    rw [← hk, hshape]
    rfl
  · rintro ⟨hk, hw⟩
    rw [List.mem_map] at hk
    obtain ⟨e, he, hk⟩ := hk
    rw [List.mem_map]
    refine ⟨e, he, ?_⟩
    obtain ⟨ab, -, hshape⟩ := build_edges_edge_mem he
    have hwe : e.weight = (alookup (edgeKey e) lv).getD 1 := by
      rw [hshape]; rfl
    rw [hk] at hwe
    rw [hk, hwe, hw]

/-- C3 core: after the fold, the level recorded for the unordered pair of a
nonempty contribution list is the maximum contributed level. -/
theorem obsFold_level_eq_max (obs : List (Str × Str × Nat)) (a b : Str)
    (hlv : ∀ o ∈ obs, 1 ≤ o.2.2) (hc : contribOf obs a b ≠ []) :
    alookup (sortPair a b) (obsFold ([], []) obs).2 =
      some (listMax ((contribOf obs a b).map (fun o => o.2.2))) := by
  rw [obsFold_levels]
  show (contribOf obs a b).foldl _ _ = _
  have hfm := List.foldl_map (fun o : Str × Str × Nat => o.2.2)
    (fun (acc : Option Nat) x => some (max (acc.getD 1) x))
    (contribOf obs a b) (none : Option Nat)
  rw [show alookup (sortPair a b) ([] : List ((Str × Str) × Nat)) = none from rfl]
  rw [← hfm]
  apply foldOptMax_none
  · intro hnil
    exact hc (List.map_eq_nil_iff.mp hnil)
  · intro x hx
    rw [List.mem_map] at hx
    obtain ⟨o, ho, he⟩ := hx
    rw [← he]
    exact hlv o (List.mem_of_mem_filter ho)

end CulinaryCosmos

namespace CulinaryCosmos

theorem obsFold_levels_perm {obs1 obs2 : List (Str × Str × Nat)}
    (h : List.Perm obs1 obs2) (k : Str × Str) :
    alookup k (obsFold ([], []) obs1).2 = alookup k (obsFold ([], []) obs2).2 := by
  rw [obsFold_levels, obsFold_levels]
  have hp : List.Perm
      (obs1.filter (fun o => obsActive o && (obsKey o = k : Bool)))
      (obs2.filter (fun o => obsActive o && (obsKey o = k : Bool))) := h.filter _
  refine hp.foldl_eq' ?_ _
  intro x _ y _ z
  show some (max ((some (max (z.getD 1) x.2.2)).getD 1) y.2.2)
    = some (max ((some (max (z.getD 1) y.2.2)).getD 1) x.2.2)
  simp only [Option.getD_some]
  rw [Nat.max_right_comm]

theorem obsFold_pairKey (obs : List (Str × Str × Nat)) (k : Str × Str) :
    ((∃ ab ∈ pairingItems (obsFold ([], []) obs).1, sortPair ab.1 ab.2 = k) ↔
      ∃ o ∈ obs, obsActive o = true ∧ obsKey o = k) := by
  constructor
  · rintro ⟨ab, hab, hk⟩
    have hpm : pairMem (obsFold ([], []) obs).1 ab.1 ab.2 = true :=
      pairingItems_pairMem (obsFold_keys_nodup obs [] [] (by simp))
        (by rw [Prod.mk.eta] at *; exact hab)
    rw [obsFold_pairMem] at hpm
    rcases hpm with hpm | ⟨o, ho, hact, hcase⟩
    · simp [pairMem, alookup] at hpm
    · refine ⟨o, ho, hact, ?_⟩
      rcases hcase with ⟨h1, h2⟩ | ⟨h1, h2⟩
      · unfold obsKey; rw [h1, h2, hk]
      · unfold obsKey; rw [h1, h2, sortPair_comm, hk]
  · rintro ⟨o, ho, hact, hk⟩
    refine ⟨(o.1, o.2.1), ?_, hk⟩
    apply pairMem_pairingItems
    rw [obsFold_pairMem]
    exact Or.inr ⟨o, ho, hact, Or.inl ⟨rfl, rfl⟩⟩

/-- C4 membership characterization of the keyed, weighted edge list. -/
theorem obsFold_keyedEdges_mem (obs : List (Str × Str × Nat)) (k : Str × Str) (w : Nat) :
    ((k, w) ∈ (build_edges (obsFold ([], []) obs).1 (obsFold ([], []) obs).2).map
        (fun e => (edgeKey e, e.weight)) ↔
      (∃ o ∈ obs, obsActive o = true ∧ obsKey o = k) ∧
        w = (alookup k (obsFold ([], []) obs).2).getD 1) := by
  rw [build_edges_keyed_mem, build_edges_key_mem, obsFold_pairKey]

end CulinaryCosmos

namespace CulinaryCosmos

/-- C3: for every unordered ingredient pair, when the same pair is observed
multiple times at different levels (in any arrival order), the built edge
list has exactly one edge for that pair, and its weight is the maximum level
among all contributing observations. -/
theorem c3_single_edge_max_weight (obs : List (Str × Str × Nat)) (a b : Str)
    (hlv : ∀ o ∈ obs, 1 ≤ o.2.2) (hc : contribOf obs a b ≠ []) :
    ((build_edges (obsFold ([], []) obs).1 (obsFold ([], []) obs).2).filter
        (fun e => (edgeKey e = sortPair a b : Bool))).map Edge.weight
      = [listMax ((contribOf obs a b).map (fun o => o.2.2))] := by
  obtain ⟨o, ho⟩ := List.exists_mem_of_ne_nil _ hc
  have hoo : o ∈ obs := List.mem_of_mem_filter ho
  have hcond := List.of_mem_filter ho
  rw [Bool.and_eq_true, decide_eq_true_eq] at hcond
  have hkey : ∃ ab ∈ pairingItems (obsFold ([], []) obs).1,
      sortPair ab.1 ab.2 = sortPair a b :=
    (obsFold_pairKey obs (sortPair a b)).mpr ⟨o, hoo, hcond.1, hcond.2⟩
  have hkm : sortPair a b ∈
      (build_edges (obsFold ([], []) obs).1 (obsFold ([], []) obs).2).map edgeKey :=
    (build_edges_key_mem _ _ _).mpr hkey
  rw [List.mem_map] at hkm
  obtain ⟨e, he, hek⟩ := hkm
  rw [filterEqOfNodupMap (build_edges_keys_nodup _ _) he hek]
  obtain ⟨ab, -, hshape⟩ := build_edges_edge_mem he
  have hwe : e.weight = (alookup (edgeKey e) (obsFold ([], []) obs).2).getD 1 := by
    rw [hshape]; rfl
  rw [List.map_singleton, hwe, hek, obsFold_level_eq_max obs a b hlv hc]
  rfl

/-- C3 witness instance: observations `(a,b,1)` and `(a,b,3)` yield a single
edge of weight `3`. -/
theorem c3_witness :
    ((build_edges
        (obsFold ([], []) [("a".toList, "b".toList, 1), ("a".toList, "b".toList, 3)]).1
        (obsFold ([], []) [("a".toList, "b".toList, 1), ("a".toList, "b".toList, 3)]).2).filter
        (fun e => (edgeKey e = sortPair "a".toList "b".toList : Bool))).map Edge.weight
      = [3] :=
  c3_single_edge_max_weight
    [("a".toList, "b".toList, 1), ("a".toList, "b".toList, 3)]
    "a".toList "b".toList (by decide) (by decide)

/-- C4: the Graph Builder fold is order-independent: permuting the
observation stream leaves the node (pairings-key) set, the unordered-pair
edge set and the per-pair weights unchanged. -/
theorem c4_fold_order_independent (obs1 obs2 : List (Str × Str × Nat))
    (hperm : List.Perm obs1 obs2) :
    (∀ x : Str, x ∈ (obsFold ([], []) obs1).1.map Prod.fst ↔
      x ∈ (obsFold ([], []) obs2).1.map Prod.fst) ∧
    List.Perm
      ((build_edges (obsFold ([], []) obs1).1 (obsFold ([], []) obs1).2).map
        (fun e => (edgeKey e, e.weight)))
      ((build_edges (obsFold ([], []) obs2).1 (obsFold ([], []) obs2).2).map
        (fun e => (edgeKey e, e.weight))) := by
  constructor
  · intro x
    rw [obsFold_keys_mem, obsFold_keys_mem]
    constructor
    · rintro (h | ⟨o, ho, hh⟩)
      · simp at h
      · exact Or.inr ⟨o, hperm.mem_iff.mp ho, hh⟩
    · rintro (h | ⟨o, ho, hh⟩)
      · simp at h
      · exact Or.inr ⟨o, hperm.mem_iff.mpr ho, hh⟩
  · have hnd : ∀ (obs : List (Str × Str × Nat)),
        ((build_edges (obsFold ([], []) obs).1 (obsFold ([], []) obs).2).map
          (fun e => (edgeKey e, e.weight))).Nodup := by
      intro obs
      apply List.Nodup.of_map Prod.fst
      rw [List.map_map]
      exact build_edges_keys_nodup _ _
    apply List.perm_of_nodup_nodup_toFinset_eq (hnd obs1) (hnd obs2)
    ext kw
    obtain ⟨k, w⟩ := kw
    simp only [List.mem_toFinset]
    rw [obsFold_keyedEdges_mem, obsFold_keyedEdges_mem]
    rw [obsFold_levels_perm hperm k]
    constructor
    · rintro ⟨⟨o, ho, hh⟩, hw⟩
      exact ⟨⟨o, hperm.mem_iff.mp ho, hh⟩, hw⟩
    · rintro ⟨⟨o, ho, hh⟩, hw⟩
      exact ⟨⟨o, hperm.mem_iff.mpr ho, hh⟩, hw⟩

/-- C4 witness instance: two concrete permuted observation streams give the
same node set and keyed edge multiset. -/
theorem c4_witness :
    (∀ x : Str, x ∈ (obsFold ([], [])
        [("a".toList, "b".toList, 1), ("c".toList, "a".toList, 3)]).1.map Prod.fst ↔
      x ∈ (obsFold ([], [])
        [("c".toList, "a".toList, 3), ("a".toList, "b".toList, 1)]).1.map Prod.fst) ∧
    List.Perm
      ((build_edges
        (obsFold ([], []) [("a".toList, "b".toList, 1), ("c".toList, "a".toList, 3)]).1
        (obsFold ([], []) [("a".toList, "b".toList, 1), ("c".toList, "a".toList, 3)]).2).map
        (fun e => (edgeKey e, e.weight)))
      ((build_edges
        (obsFold ([], []) [("c".toList, "a".toList, 3), ("a".toList, "b".toList, 1)]).1
        (obsFold ([], []) [("c".toList, "a".toList, 3), ("a".toList, "b".toList, 1)]).2).map
        (fun e => (edgeKey e, e.weight))) :=
  c4_fold_order_independent
    [("a".toList, "b".toList, 1), ("c".toList, "a".toList, 3)]
    [("c".toList, "a".toList, 3), ("a".toList, "b".toList, 1)]
    (by decide)

end CulinaryCosmos

namespace CulinaryCosmos

set_option maxRecDepth 8000

/-- C1 counterexample: in the pipeline's processing of the lines `"GARLIC"`,
`"onion, olive oil, *basil"` (not bold), no edge touching `basil` has weight
4 — the asterisk on the non-leading segment does not raise the level, since
`parse_pairing_line` reads the marker only at the start of the whole line. -/
theorem c1_counterexample :
    ¬ ∃ e ∈ (mainExtract c1Lines).edges,
      sortPair e.source e.target = ("basil".toList, "garlic".toList) ∧ e.weight = 4 := by
  decide

/-- C1 (amended): the two input lines produce the nodes
{basil, garlic, olive oil, onion} and exactly the three edges
(garlic,onion), (garlic,olive oil), (garlic,basil), each of weight 1: the
mid-line asterisk is stripped from the ingredient name and the whole line
stays at level 1. -/
theorem c1_amended :
    (mainExtract c1Lines).nodes.map Node.id =
      ["basil".toList, "garlic".toList, "olive oil".toList, "onion".toList] ∧
    List.Perm ((mainExtract c1Lines).edges.map (fun e => (edgeKey e, e.weight)))
      [(("garlic".toList, "onion".toList), 1),
       (("garlic".toList, "olive oil".toList), 1),
       (("basil".toList, "garlic".toList), 1)] := by
  exact ⟨by decide, by decide⟩

/-- C2 counterexample: the canonicalization merge is not idempotent on the
graph with node `"cheese, apricots"` (edge to `"pork"`): the first pass
rewrites it to `"apricots"`, and a second pass rewrites that to `"apricot"`. -/
theorem c2_counterexample : mergePass (mergePass c2CexGraph) ≠ mergePass c2CexGraph := by
  decide

/-- C7: `"apricots"` and `"apricots, dried"` both canonicalize to
`"apricot"`, and merging the graph with edges (apricots, pork, 1) and
(apricots dried, pork, 3) yields exactly one edge (apricot, pork) of
weight 3. -/
theorem c7_apricot_merge :
    canonicalsFor "apricots".toList = ["apricot".toList] ∧
    canonicalsFor "apricots, dried".toList = ["apricot".toList] ∧
    (mergePass c7Graph).edges = [⟨"apricot".toList, "pork".toList, 3, 3, false⟩] ∧
    (mergePass c7Graph).nodes.map Node.id = ["apricot".toList, "pork".toList] := by
  exact ⟨by decide, by decide, by decide, by decide⟩

/-- C8 counterexample: `normalize_ingredient` is not idempotent:
on `"a —(x) b"` the first pass yields `"a — b"` (the removed parenthetical
leaves a space after the em dash) and the second pass yields `"a"`. -/
theorem c8_counterexample :
    normalize_ingredient (normalize_ingredient c8CexInput) ≠
      normalize_ingredient c8CexInput := by
  decide

/-- C9: the affinity line `"achiote + pork + sour orange"`, processed while
inside an affinity block, produces exactly the 3 edges of the triangle on
the three normalized ids, each with level 2. -/
theorem c9_affinity_triangle :
    List.Perm ((build_edges (processLine c9State c9Line).pairings
        (processLine c9State c9Line).edgeLevels).map
        (fun e => (edgeKey e, e.weight)))
      [(("achiote".toList, "pork".toList), 2),
       (("achiote".toList, "sour orange".toList), 2),
       (("pork".toList, "sour orange".toList), 2)] := by
  decide

end CulinaryCosmos

namespace CulinaryCosmos

/-- C5: after the Invariant Enforcer, every remaining node has degree at
least 1 (for any input graph); and in the concrete pruning scenario, the
node `pork`, whose only edge goes to the non-food node `serve`, is removed
in the same run (the final node list is empty). -/
theorem c5_enforcer_degrees :
    (∀ (g : Graph) (n : Node), n ∈ (enforcePass g).nodes →
      1 ≤ degree (enforcePass g) n.id) ∧
    (enforcePass c5ScenarioGraph).nodes = [] := by
  constructor
  · intro g n hn
    have hpred := List.of_mem_filter hn
    rw [List.any_eq_true] at hpred
    obtain ⟨e, he, hcond⟩ := hpred
    unfold degree
    have hmem : e ∈ (enforcePass g).edges.filter
        (fun e => e.source = n.id || e.target = n.id) :=
      List.mem_filter.mpr ⟨he, hcond⟩
    have : (enforcePass g).edges.filter
        (fun e => e.source = n.id || e.target = n.id) ≠ [] :=
      List.ne_nil_of_mem hmem
    exact List.length_pos.mpr this
  · decide

/-- C5 witness: in a two-food-node graph with one edge, the surviving node
`pork` has degree 1. -/
theorem c5_witness :
    1 ≤ degree (enforcePass c5WitnessGraph)
      (⟨"pork".toList, "pork".toList, none⟩ : Node).id :=
  c5_enforcer_degrees.1 c5WitnessGraph ⟨"pork".toList, "pork".toList, none⟩ (by decide)

theorem aset_entry_mem {κ ν : Type} [DecidableEq κ] {x : κ × ν} {k : κ} {v : ν}
    {l : List (κ × ν)} (h : x ∈ aset k v l) : x = (k, v) ∨ x ∈ l := by
  induction l with
  | nil => simpa [aset] using h
  | cons kv t ih =>
    obtain ⟨k', v'⟩ := kv
    by_cases h2 : k = k'
    · subst h2
      rw [show aset k v ((k, v') :: t) = (k, v) :: t by rw [aset, if_pos rfl]] at h
      rcases List.mem_cons.mp h with h | h
      · exact Or.inl h
      · exact Or.inr (List.mem_cons_of_mem _ h)
    · rw [show aset k v ((k', v') :: t) = (k', v') :: aset k v t by
        rw [aset, if_neg h2]] at h
      rcases List.mem_cons.mp h with h | h
      · exact Or.inr (by rw [h]; exact List.mem_cons_self _ _)
      · rcases ih h with h3 | h3
        · exact Or.inl h3
        · exact Or.inr (List.mem_cons_of_mem _ h3)

/-- All values in the reconciled edge-data dict have equal weight and
recommendation level components, provided the contributing edges do. -/
theorem edgeData_components_eq {ctn : List (Str × Node)} {w r : Nat} (hwr : w = r) :
    ∀ (ss ts : List Str) (acc : List ((Str × Str) × (Nat × Nat))),
      (∀ kv ∈ acc, kv.2.1 = kv.2.2) →
      ∀ kv ∈ ss.foldl (fun acc src => ts.foldl
          (fun acc tgt => edgeDataStep ctn w r acc src tgt) acc) acc,
        kv.2.1 = kv.2.2 := by
  intro ss
  induction ss with
  | nil => intro ts acc hacc; exact hacc
  | cons s ss ih =>
    intro ts acc hacc
    simp only [List.foldl_cons]
    apply ih
    induction ts generalizing acc with
    | nil => exact hacc
    | cons t ts iht =>
      simp only [List.foldl_cons]
      apply iht
      intro kv hkv
      unfold edgeDataStep at hkv
      split at hkv
      · rcases aset_entry_mem hkv with he | hm
        · subst he
          show max _ w = max _ r
          rcases hl : alookup (sortPair s t) acc with _ | v
          · simpa using hwr
          · have := hacc _ (alookup_mem hl)
            simp only [Option.getD_some]
            rw [this, hwr]
        · exact hacc _ hm
      · exact hacc _ hkv

end CulinaryCosmos

namespace CulinaryCosmos

theorem edgeDataOfEdge_components_eq {idc : List (Str × List Str)}
    {ctn : List (Str × Node)} :
    ∀ (es : List Edge) (acc : List ((Str × Str) × (Nat × Nat))),
      (∀ kv ∈ acc, kv.2.1 = kv.2.2) →
      (∀ e ∈ es, e.weight = e.recommendation_level) →
      ∀ kv ∈ es.foldl (edgeDataOfEdge idc ctn) acc, kv.2.1 = kv.2.2 := by
  intro es
  induction es with
  | nil => intro acc hacc _; exact hacc
  | cons e es ih =>
    intro acc hacc hes
    simp only [List.foldl_cons]
    apply ih
    · unfold edgeDataOfEdge
      exact edgeData_components_eq (hes e (List.mem_cons_self _ _)) _ _ _ hacc
    · intro e' he'; exact hes e' (List.mem_cons_of_mem _ he')

/-- C10: every edge record emitted by the pipeline has `weight` equal to
`recommendation_level`: at extraction (`build_edges` plus the affinity
marking set both fields to the same level) and through the
canonicalization merge (which maximizes both components of equal inputs). -/
theorem c10_weight_matches_level :
    (∀ (lines : List (Str × Bool)), ∀ e ∈ (mainExtract lines).edges,
      e.weight = e.recommendation_level) ∧
    (∀ g : Graph, (∀ e ∈ g.edges, e.weight = e.recommendation_level) →
      ∀ e ∈ (mergePass g).edges, e.weight = e.recommendation_level) := by
  constructor
  · intro lines e he
    simp only [mainExtract] at he
    rw [List.mem_map] at he
    obtain ⟨e0, he0, hmark⟩ := he
    obtain ⟨ab, -, hshape⟩ := build_edges_edge_mem he0
    have hwr : e0.weight = e0.recommendation_level := by rw [hshape]; rfl
    rw [← hmark]
    split
    · exact hwr
    · exact hwr
  · intro g hg e he
    simp only [mergePass] at he
    rw [List.mem_map] at he
    obtain ⟨kv, hkv, hmk⟩ := he
    have := edgeDataOfEdge_components_eq _ [] (by intro kv h; cases h)
      (fun e' he' => hg e' (List.mem_of_mem_filter he')) kv hkv
    rw [← hmk]
    exact this

/-- C10 witness: the hypothesis of the merge part holds on the concrete
apricot graph, whose merged edge has equal fields. -/
theorem c10_witness :
    (⟨"apricot".toList, "pork".toList, 3, 3, false⟩ : Edge).weight =
      (⟨"apricot".toList, "pork".toList, 3, 3, false⟩ : Edge).recommendation_level :=
  c10_weight_matches_level.2 c7Graph (by decide)
    ⟨"apricot".toList, "pork".toList, 3, 3, false⟩ (by decide)

end CulinaryCosmos

namespace CulinaryCosmos

/-! ### Structural lemmas about the canonicalization merge -/

theorem canonInsert_inv {cat : Str} {acc : List (Str × Node)} (h : CtnInv acc)
    (c : Str) : CtnInv (canonInsert cat acc c) := by
  unfold canonInsert
  split <;> rename_i hs
  · exact h
  · constructor
    · intro kv hkv
      rcases List.mem_append.mp hkv with hm | hm
      · exact h.1 kv hm
      · rw [List.mem_singleton] at hm
        subst hm
        exact ⟨rfl, rfl, cat, rfl⟩
    · rw [List.map_append]
      rw [List.nodup_append]
      refine ⟨h.2, by simp, ?_⟩
      intro x hx
      simp only [List.map_cons, List.map_nil, List.mem_cons, List.not_mem_nil,
        or_false]
      intro he
      subst he
      rw [Option.isSome_iff_ne_none, ne_eq, not_not] at hs
      exact (alookup_eq_none_iff _ _).mp hs hx

theorem canonFold_inv {idc : List (Str × List Str)} :
    ∀ (ns : List Node) (acc : List (Str × Node)), CtnInv acc →
      CtnInv (ns.foldl (canonNodesOfNode idc) acc) := by
  intro ns
  induction ns with
  | nil => intro acc h; exact h
  | cons n ns ih =>
    intro acc h
    simp only [List.foldl_cons]
    apply ih
    unfold canonNodesOfNode
    generalize ((alookup n.id idc).getD []) = cs
    induction cs generalizing acc with
    | nil => exact h
    | cons c cs ihc =>
      simp only [List.foldl_cons]
      exact ihc _ (canonInsert_inv h c)

theorem edgeDataStep_inv {ctn : List (Str × Node)} {w r : Nat}
    {acc : List ((Str × Str) × (Nat × Nat))} (h : EdInv ctn acc) (s t : Str) :
    EdInv ctn (edgeDataStep ctn w r acc s t) := by
  unfold edgeDataStep
  split <;> rename_i hg
  · rw [Bool.and_eq_true, Bool.and_eq_true, decide_eq_true_eq] at hg
    obtain ⟨⟨hst, hs⟩, ht⟩ := hg
    constructor
    · intro kv hkv
      rcases aset_entry_mem hkv with he | hm
      · subst he
        rcases sortPair_cases s t with hc | hc
        · rw [hc]
          exact ⟨hs, ht, by rw [← hc]; exact sortPair_lt hst⟩
        · rw [hc]
          exact ⟨ht, hs, by rw [← hc]; exact sortPair_lt hst⟩
      · exact h.1 kv hm
    · exact aset_keys_nodup _ _ _ h.2
  · exact h

theorem edFoldT_inv {ctn : List (Str × Node)} {w r : Nat} {s : Str} :
    ∀ (ts : List Str) (acc : List ((Str × Str) × (Nat × Nat))), EdInv ctn acc →
      EdInv ctn (ts.foldl (fun acc tgt => edgeDataStep ctn w r acc s tgt) acc) := by
  intro ts
  induction ts with
  | nil => intro acc h; exact h
  | cons t ts ih =>
    intro acc h
    simp only [List.foldl_cons]
    exact ih _ (edgeDataStep_inv h s t)

theorem edFoldS_inv {ctn : List (Str × Node)} {w r : Nat} {ts : List Str} :
    ∀ (ss : List Str) (acc : List ((Str × Str) × (Nat × Nat))), EdInv ctn acc →
      EdInv ctn (ss.foldl (fun acc src => ts.foldl
        (fun acc tgt => edgeDataStep ctn w r acc src tgt) acc) acc) := by
  intro ss
  induction ss with
  | nil => intro acc h; exact h
  | cons s ss ih =>
    intro acc h
    simp only [List.foldl_cons]
    exact ih _ (edFoldT_inv _ _ h)

theorem edgeDataOfEdge_inv {idc : List (Str × List Str)} {ctn : List (Str × Node)} :
    ∀ (es : List Edge) (acc : List ((Str × Str) × (Nat × Nat))), EdInv ctn acc →
      EdInv ctn (es.foldl (edgeDataOfEdge idc ctn) acc) := by
  intro es
  induction es with
  | nil => intro acc h; exact h
  | cons e es ih =>
    intro acc h
    simp only [List.foldl_cons]
    apply ih
    unfold edgeDataOfEdge
    exact edFoldS_inv _ _ h

/-- The output shape of the merge: node list from `canon_to_node`, edge list
from `edge_data`, satisfies the edge invariant. -/
theorem mergeOut_invariant (ctn : List (Str × Node))
    (ed : List ((Str × Str) × (Nat × Nat))) (hctn : CtnInv ctn)
    (hed : EdInv ctn ed) :
    edgeInvariant ⟨ctn.map Prod.snd,
      ed.map (fun kv => (⟨kv.1.1, kv.1.2, kv.2.1, kv.2.2, false⟩ : Edge))⟩ := by
  have hids : (ctn.map Prod.snd).map Node.id = ctn.map Prod.fst := by
    rw [List.map_map]
    apply List.map_congr_left
    intro kv hkv
    exact (hctn.1 kv hkv).1
  constructor
  · intro e he
    rw [List.mem_map] at he
    obtain ⟨kv, hkv, hmk⟩ := he
    have hq := hed.1 kv hkv
    refine ⟨?_, ?_, ?_⟩
    · rw [← hmk]
      exact lexLtB_ne hq.2.2
    · rw [← hmk]
      show kv.1.1 ∈ (ctn.map Prod.snd).map Node.id
      rw [hids]
      exact (alookup_isSome_iff _ _).mp hq.1
    · rw [← hmk]
      show kv.1.2 ∈ (ctn.map Prod.snd).map Node.id
      rw [hids]
      exact (alookup_isSome_iff _ _).mp hq.2.1
  · show ((ed.map (fun kv => (⟨kv.1.1, kv.1.2, kv.2.1, kv.2.2, false⟩ : Edge))).map
      (fun e => sortPair e.source e.target)).Nodup
    have : (ed.map (fun kv => (⟨kv.1.1, kv.1.2, kv.2.1, kv.2.2, false⟩ : Edge))).map
        (fun e => sortPair e.source e.target) = ed.map Prod.fst := by
      rw [List.map_map]
      apply List.map_congr_left
      intro kv hkv
      show sortPair kv.1.1 kv.1.2 = kv.1
      rw [sortPair_fst_eq_of_lt (hed.1 kv hkv).2.2]
    rw [this]
    exact hed.2

/-- C6, canonicalization stage: the merge output satisfies the edge
invariant for every input graph. -/
theorem mergePass_invariant (g : Graph) : edgeInvariant (mergePass g) := by
  simp only [mergePass]
  exact mergeOut_invariant _ _
    (canonFold_inv _ _ ⟨(by intro kv h; cases h), (by simp)⟩)
    (edgeDataOfEdge_inv _ _ ⟨(by intro kv h; cases h), (by simp)⟩)

end CulinaryCosmos

namespace CulinaryCosmos

/-- C6, cleaning stage: node/edge filtering preserves the edge invariant,
for any keep predicate. -/
theorem cleanPass_invariant (keep : Str → Bool) {g : Graph}
    (h : edgeInvariant g) : edgeInvariant (cleanPass keep g) := by
  obtain ⟨h1, h2⟩ := h
  have hend : ∀ x : Str, ((g.nodes.filter (fun n => keep n.id)).map Node.id).contains x
      = true → x ∈ ((cleanPass keep g).nodes).map Node.id := by
    intro x hx
    have hx2 : x ∈ (g.nodes.filter (fun n => keep n.id)).map Node.id := by
      simpa using hx
    rw [List.mem_map] at hx2
    obtain ⟨n, hn, hid⟩ := hx2
    rw [List.mem_map]
    refine ⟨n, ?_, hid⟩
    apply List.mem_filter.mpr
    refine ⟨List.mem_of_mem_filter hn, ?_⟩
    apply List.elem_eq_true_of_mem
    rw [List.mem_map]
    exact ⟨n, hn, rfl⟩
  constructor
  · intro e he
    have hin : e ∈ g.edges := List.mem_of_mem_filter he
    have hcond := List.of_mem_filter he
    rw [Bool.and_eq_true] at hcond
    exact ⟨(h1 e hin).1, hend _ hcond.1, hend _ hcond.2⟩
  · show (((g.edges.filter _).map (fun e => sortPair e.source e.target))).Nodup
    exact h2.sublist (List.Sublist.map _ (List.filter_sublist _))

/-- C6, enforcement stage: the Invariant Enforcer preserves the edge
invariant. -/
theorem enforcePass_invariant {g : Graph} (h : edgeInvariant g) :
    edgeInvariant (enforcePass g) := by
  obtain ⟨h1, h2⟩ := h
  have hend : ∀ e ∈ (enforcePass g).edges, ∀ x : Str,
      (((g.nodes.filter (fun n => g.edges.any
          (fun e => e.source = n.id || e.target = n.id))).filter
        (fun n => is_food_item n.id)).map Node.id).contains x = true →
      (e.source = x ∨ e.target = x) →
      x ∈ ((enforcePass g).nodes).map Node.id := by
    intro e he x hx hex
    have hx2 : x ∈ ((g.nodes.filter (fun n => g.edges.any
        (fun e => e.source = n.id || e.target = n.id))).filter
        (fun n => is_food_item n.id)).map Node.id := by
      simpa using hx
    rw [List.mem_map] at hx2
    obtain ⟨n, hn, hid⟩ := hx2
    rw [List.mem_map]
    refine ⟨n, ?_, hid⟩
    show n ∈ List.filter _ (List.filter _ _)
    apply List.mem_filter.mpr
    constructor
    · apply List.mem_filter.mpr
      refine ⟨List.mem_of_mem_filter hn, ?_⟩
      apply List.elem_eq_true_of_mem
      rw [List.mem_map]
      exact ⟨n, hn, rfl⟩
    · rw [List.any_eq_true]
      refine ⟨e, he, ?_⟩
      rw [hid]
      rcases hex with hex | hex
      · simp [hex]
      · simp [hex]
  constructor
  · intro e he
    have hin : e ∈ g.edges := List.mem_of_mem_filter he
    have hcond := List.of_mem_filter he
    rw [Bool.and_eq_true] at hcond
    refine ⟨(h1 e hin).1, ?_, ?_⟩
    · exact hend e he e.source hcond.1 (Or.inl rfl)
    · exact hend e he e.target hcond.2 (Or.inr rfl)
  · show (((g.edges.filter _).map (fun e => sortPair e.source e.target))).Nodup
    exact h2.sublist (List.Sublist.map _ (List.filter_sublist _))

end CulinaryCosmos

namespace CulinaryCosmos

theorem PairInv_nil : PairInv [] := by
  refine ⟨?_, ?_, by simp⟩
  · intro a b h
    simp [pairMem, alookup] at h
  · intro a h
    simp [pairMem, alookup] at h

theorem PairInv_addPair2 {p : List (Str × List Str)} (h : PairInv p) {x y : Str}
    (hxy : x ≠ y) : PairInv (addPair2 p x y) := by
  obtain ⟨hsym, hirr, hnd⟩ := h
  refine ⟨?_, ?_, ?_⟩
  · intro a b hab
    rw [pairMem_addPair2] at hab ⊢
    rcases hab with hab | hab | hab
    · exact Or.inl (hsym a b hab)
    · exact Or.inr (Or.inr ⟨hab.2, hab.1⟩)
    · exact Or.inr (Or.inl ⟨hab.2, hab.1⟩)
  · intro a ha
    rw [pairMem_addPair2] at ha
    rcases ha with ha | ha | ha
    · exact hirr a ha
    · exact hxy (ha.1.symm.trans ha.2)
    · exact hxy (ha.2.symm.trans ha.1)
  · exact addPairing_keys_nodup _ _ _ (addPairing_keys_nodup _ _ _ hnd)

theorem cliquePairs_ne : ∀ (l : List Str), ∀ ab ∈ cliquePairs l, ab.1 ≠ ab.2 := by
  intro l
  induction l with
  | nil => intro ab h; cases h
  | cons x xs ih =>
    intro ab h
    unfold cliquePairs at h
    rcases List.mem_append.mp h with h | h
    · rw [List.mem_map] at h
      obtain ⟨y, hy, he⟩ := h
      have hyne := List.of_mem_filter hy
      rw [decide_eq_true_eq] at hyne
      rw [← he]
      exact fun hh => hyne hh.symm
    · exact ih ab h

theorem parse_flavor_affinity_ne (line : Str) :
    ∀ ab ∈ parse_flavor_affinity line, ab.1 ≠ ab.2 := by
  intro ab h
  simp only [parse_flavor_affinity] at h
  split at h
  · cases h
  · split at h
    · cases h
    · exact cliquePairs_ne _ ab h

theorem affFold_inv :
    ∀ (es : List (Str × Str))
      (pl : List (Str × List Str) × List ((Str × Str) × Nat)),
      (∀ ab ∈ es, ab.1 ≠ ab.2) → PairInv pl.1 →
      PairInv ((es.foldl (fun (pl : _ × _) e =>
        (addPair2 pl.1 e.1 e.2, bumpLevel pl.2 e.1 e.2 2)) pl)).1 := by
  intro es
  induction es with
  | nil => intro pl _ h; exact h
  | cons e es ih =>
    intro pl hne h
    simp only [List.foldl_cons]
    exact ih _ (fun ab hab => hne ab (List.mem_cons_of_mem _ hab))
      (PairInv_addPair2 h (hne e (List.mem_cons_self _ _)))

theorem recordObs_inv {p : List (Str × List Str)} {l : List ((Str × Str) × Nat)}
    (h : PairInv p) (cur ing : Str) (level : Nat) :
    PairInv (recordObs p l cur ing level).1 := by
  unfold recordObs
  split <;> rename_i hg
  · rw [Bool.and_eq_true, decide_eq_true_eq] at hg
    exact PairInv_addPair2 h (fun hh => hg.2 hh.symm)
  · exact h

theorem parseFold_inv (cur : Str) :
    ∀ (os : List (Str × Nat))
      (pl : List (Str × List Str) × List ((Str × Str) × Nat)),
      PairInv pl.1 →
      PairInv ((os.foldl (fun (pl : _ × _) o =>
        recordObs pl.1 pl.2 cur o.1 o.2) pl)).1 := by
  intro os
  induction os with
  | nil => intro pl h; exact h
  | cons o os ih =>
    intro pl h
    simp only [List.foldl_cons]
    exact ih _ (recordObs_inv h cur o.1 o.2)

theorem processLine_inv {st : ExtractState} (h : PairInv st.pairings)
    (lb : Str × Bool) : PairInv (processLine st lb).pairings := by
  simp only [processLine]
  split
  · exact h
  · split
    · exact h
    · split
      · exact affFold_inv _ _ (parse_flavor_affinity_ne _) h
      · split
        · exact h
        · split
          · split
            · exact h
            · exact parseFold_inv _ _ _ h
          · exact h

theorem extractFold_inv (lines : List (Str × Bool)) :
    PairInv ((lines.foldl processLine initExtractState).pairings) := by
  have : ∀ (ls : List (Str × Bool)) (st : ExtractState), PairInv st.pairings →
      PairInv ((ls.foldl processLine st).pairings) := by
    intro ls
    induction ls with
    | nil => intro st h; exact h
    | cons lb ls ih =>
      intro st h
      simp only [List.foldl_cons]
      exact ih _ (processLine_inv h lb)
  exact this lines initExtractState PairInv_nil

end CulinaryCosmos

namespace CulinaryCosmos

theorem alookup_filteredPairings (valid : List Str) (P : List (Str × List Str))
    (a : Str) :
    alookup a ((P.filter (fun kv => valid.contains kv.1)).map
        (fun kv => (kv.1, kv.2.filter is_valid_ingredient))) =
      (if valid.contains a then
        (alookup a P).map (fun bs => bs.filter is_valid_ingredient) else none) := by
  induction P with
  | nil => simp [alookup]
  | cons kv t ih =>
    obtain ⟨k, bs⟩ := kv
    by_cases hak : a = k
    · subst hak
      by_cases hc : valid.contains a
      · rw [List.filter_cons_of_pos (by simpa using hc)]
        simp only [List.map_cons, alookup, if_pos rfl, if_pos hc]
        rfl
      · rw [List.filter_cons_of_neg (by simpa using hc)]
        rw [ih, if_neg hc, if_neg hc]
    · by_cases hc : valid.contains k
      · rw [List.filter_cons_of_pos (by simpa using hc)]
        simp only [List.map_cons, alookup, if_neg hak]
        exact ih
      · rw [List.filter_cons_of_neg (by simpa using hc)]
        rw [show alookup a ((k, bs) :: t) = alookup a t from by simp [alookup, hak]]
        exact ih

theorem pairMem_filteredPairings (valid : List Str) (P : List (Str × List Str))
    (a b : Str) :
    (pairMem ((P.filter (fun kv => valid.contains kv.1)).map
        (fun kv => (kv.1, kv.2.filter is_valid_ingredient))) a b = true ↔
      valid.contains a = true ∧ pairMem P a b = true ∧
        is_valid_ingredient b = true) := by
  unfold pairMem
  rw [alookup_filteredPairings]
  by_cases hc : valid.contains a
  · rw [if_pos hc]
    rcases hl : alookup a P with _ | bs
    · simp [hc]
    · simp only [Option.map_some, Option.getD_some]
      constructor
      · intro h
        have h2 : b ∈ bs.filter is_valid_ingredient := by simpa using h
        refine ⟨hc, ?_, List.of_mem_filter h2⟩
        apply List.elem_eq_true_of_mem
        exact List.mem_of_mem_filter h2
      · rintro ⟨-, hm, hv⟩
        apply List.elem_eq_true_of_mem
        apply List.mem_filter.mpr
        refine ⟨by simpa using hm, hv⟩
  · rw [if_neg hc]
    simp only [Option.getD_none]
    constructor
    · intro h; simp at h
    · rintro ⟨hca, -⟩; exact absurd hca hc

theorem PairInv_filtered (P : List (Str × List Str)) (h : PairInv P) :
    PairInv ((P.filter
        (fun kv => ((P.map Prod.fst).filter is_valid_ingredient).contains kv.1)).map
      (fun kv => (kv.1, kv.2.filter is_valid_ingredient))) := by
  obtain ⟨hsym, hirr, hnd⟩ := h
  refine ⟨?_, ?_, ?_⟩
  · intro a b hab
    rw [pairMem_filteredPairings] at hab ⊢
    obtain ⟨hca, hm, hv⟩ := hab
    refine ⟨?_, hsym a b hm, ?_⟩
    · apply List.elem_eq_true_of_mem
      apply List.mem_filter.mpr
      constructor
      · rw [← alookup_isSome_iff]
        have : pairMem P b a = true := hsym a b hm
        unfold pairMem at this
        rcases hl : alookup b P with _ | bs
        · rw [hl] at this; simp at this
        · simp
      · exact hv
    · have hca2 : a ∈ (P.map Prod.fst).filter is_valid_ingredient := by simpa using hca
      exact List.of_mem_filter hca2
  · intro a ha
    rw [pairMem_filteredPairings] at ha
    exact hirr a ha.2.1
  · have : ((P.filter
        (fun kv => ((P.map Prod.fst).filter is_valid_ingredient).contains kv.1)).map
        (fun kv => (kv.1, kv.2.filter is_valid_ingredient))).map Prod.fst =
        (P.filter
          (fun kv => ((P.map Prod.fst).filter is_valid_ingredient).contains kv.1)).map
          Prod.fst := by
      rw [List.map_map]
      rfl
    rw [this]
    exact hnd.sublist (List.Sublist.map _ (List.filter_sublist _))

end CulinaryCosmos

namespace CulinaryCosmos

theorem sortedStrs_mem (l : List Str) (x : Str) : x ∈ sortedStrs l ↔ x ∈ l :=
  (List.perm_insertionSort _ l).mem_iff

/-- The extraction output shape satisfies the edge invariant whenever the
(filtered) pairings dict is symmetric, irreflexive and key-distinct. -/
theorem extractOut_invariant (P : List (Str × List Str))
    (L : List ((Str × Str) × Nat)) (aff : List (Str × Str)) (hinv : PairInv P) :
    edgeInvariant
      ⟨(sortedStrs (P.map Prod.fst).dedup).map (fun n => (⟨n, n, none⟩ : Node)),
       (build_edges P L).map (fun e =>
         if (aff.map (fun ab => sortPair ab.1 ab.2)).contains
             (sortPair e.source e.target) then
           { e with from_affinity := true }
         else e)⟩ := by
  obtain ⟨hsym, hirr, hnd⟩ := hinv
  have hmark : ∀ e : Edge,
      (if (aff.map (fun ab => sortPair ab.1 ab.2)).contains
          (sortPair e.source e.target) then
        ({ e with from_affinity := true } : Edge)
      else e).source = e.source ∧
      (if (aff.map (fun ab => sortPair ab.1 ab.2)).contains
          (sortPair e.source e.target) then
        ({ e with from_affinity := true } : Edge)
      else e).target = e.target := by
    intro e; split <;> exact ⟨rfl, rfl⟩
  have hidlist : ((sortedStrs (P.map Prod.fst).dedup).map
      (fun n => (⟨n, n, none⟩ : Node))).map Node.id =
      sortedStrs (P.map Prod.fst).dedup := by
    rw [List.map_map]
    exact List.map_congr_left (fun n _ => rfl) |>.trans (List.map_id _)
  constructor
  · intro e' he'
    rw [List.mem_map] at he'
    obtain ⟨e, he, hmk⟩ := he'
    obtain ⟨ab, hab, hshape⟩ := build_edges_edge_mem he
    have hpm : pairMem P ab.1 ab.2 = true :=
      pairingItems_pairMem hnd (by rw [Prod.mk.eta]; exact hab)
    have hne : ab.1 ≠ ab.2 := by
      intro hh
      rw [hh] at hpm
      exact hirr ab.2 hpm
    have hsrc : e'.source = ab.1 := by
      rw [← hmk, (hmark e).1, hshape]; rfl
    have htgt : e'.target = ab.2 := by
      rw [← hmk, (hmark e).2, hshape]; rfl
    refine ⟨?_, ?_, ?_⟩
    · rw [hsrc, htgt]; exact hne
    · show e'.source ∈ _
      rw [hidlist, hsrc, sortedStrs_mem, List.mem_dedup]
      rw [← alookup_isSome_iff]
      unfold pairMem at hpm
      rcases hl : alookup ab.1 P with _ | bs
      · rw [hl] at hpm; simp at hpm
      · simp
    · show e'.target ∈ _
      rw [hidlist, htgt, sortedStrs_mem, List.mem_dedup]
      rw [← alookup_isSome_iff]
      have hpm2 := hsym _ _ hpm
      unfold pairMem at hpm2
      rcases hl : alookup ab.2 P with _ | bs
      · rw [hl] at hpm2; simp at hpm2
      · simp
  · have heq : (((build_edges P L).map (fun e =>
        if (aff.map (fun ab => sortPair ab.1 ab.2)).contains
            (sortPair e.source e.target) then
          ({ e with from_affinity := true } : Edge)
        else e)).map (fun e => sortPair e.source e.target)) =
        (build_edges P L).map edgeKey := by
      rw [List.map_map]
      apply List.map_congr_left
      intro e _
      show sortPair _ _ = edgeKey e
      rw [(hmark e).1, (hmark e).2]
      rfl
    rw [heq]
    exact build_edges_keys_nodup _ _

/-- C6, extraction stage: `mainExtract` output satisfies the edge invariant
for every input line stream. -/
theorem mainExtract_invariant (lines : List (Str × Bool)) :
    edgeInvariant (mainExtract lines) := by
  simp only [mainExtract]
  exact extractOut_invariant _ _ _ (PairInv_filtered _ (extractFold_inv lines))

/-- C6: every pipeline stage boundary satisfies the edge invariant: the
extraction output (unconditionally), the cleaning output, the
canonicalization output (unconditionally), and the enforcement output, each
applied to the previous stage's graph. -/
theorem c6_stage_invariants (lines : List (Str × Bool)) (keep : Str → Bool) :
    edgeInvariant (mainExtract lines) ∧
    edgeInvariant (cleanPass keep (mainExtract lines)) ∧
    edgeInvariant (mergePass (cleanPass keep (mainExtract lines))) ∧
    edgeInvariant (enforcePass (mergePass (cleanPass keep (mainExtract lines)))) :=
  ⟨mainExtract_invariant lines,
   cleanPass_invariant keep (mainExtract_invariant lines),
   mergePass_invariant _,
   enforcePass_invariant (mergePass_invariant _)⟩

end CulinaryCosmos

namespace CulinaryCosmos

/-! ### The merge pass on an already-canonical graph (C2) -/

theorem alookup_append_none {κ ν : Type} [DecidableEq κ] {k : κ}
    {l1 l2 : List (κ × ν)} (h : alookup k l1 = none) :
    alookup k (l1 ++ l2) = alookup k l2 := by
  induction l1 with
  | nil => rfl
  | cons kv t ih =>
    obtain ⟨k', v'⟩ := kv
    simp only [alookup] at h ⊢
    by_cases h2 : k = k'
    · simp [h2] at h
    · rw [if_neg h2] at h ⊢
      exact ih h

theorem alookup_mapNodes {f : Node → List Str} {N : List Node}
    (hnd : (N.map Node.id).Nodup) {n : Node} (hn : n ∈ N) :
    alookup n.id (N.map (fun n => (n.id, f n))) = some (f n) := by
  apply alookup_of_mem
  · exact List.mem_map.mpr ⟨n, hn, rfl⟩
  · rw [List.map_map]
    exact hnd

theorem asetFold_eq {f : Node → List Str} :
    ∀ (N : List Node) (acc : List (Str × List Str)),
      (∀ n ∈ N, alookup n.id acc = none) → (N.map Node.id).Nodup →
      N.foldl (fun acc n => aset n.id (f n) acc) acc =
        acc ++ N.map (fun n => (n.id, f n)) := by
  intro N
  induction N with
  | nil => intro acc _ _; simp
  | cons n ns ih =>
    intro acc hfresh hnd
    simp only [List.foldl_cons]
    rw [aset_absent _ _ _ (hfresh n (List.mem_cons_self _ _))]
    rw [List.map_cons, List.nodup_cons] at hnd
    rw [ih _ ?_ hnd.2]
    · simp
    · intro m hm
      rw [alookup_append_none (hfresh m (List.mem_cons_of_mem _ hm))]
      have hne : m.id ≠ n.id := by
        intro hh
        exact hnd.1 (by rw [← hh]; exact List.mem_map.mpr ⟨m, hm, rfl⟩)
      simp [alookup, hne]

/-- On a node list with distinct ids, the `id_to_canonicals` fold assigns
each node its `canonicalsFor` value. -/
theorem idc_lookup {N : List Node} (hnd : (N.map Node.id).Nodup) {n : Node}
    (hn : n ∈ N) :
    alookup n.id (N.foldl (fun acc n => aset n.id (canonicalsFor n.id) acc) []) =
      some (canonicalsFor n.id) := by
  rw [asetFold_eq N [] (fun _ _ => rfl) hnd]
  rw [List.nil_append]
  exact alookup_mapNodes hnd hn

end CulinaryCosmos

namespace CulinaryCosmos

theorem ctnFold_eq {idc : List (Str × List Str)} :
    ∀ (N : List Node) (acc : List (Str × Node)),
      (∀ n ∈ N, alookup n.id idc = some [n.id]) →
      (∀ n ∈ N, n.label = n.id ∧ ∃ c, n.category = some c) →
      (∀ n ∈ N, alookup n.id acc = none) →
      (N.map Node.id).Nodup →
      N.foldl (canonNodesOfNode idc) acc = acc ++ N.map (fun n => (n.id, n)) := by
  intro N
  induction N with
  | nil => intro acc _ _ _ _; simp
  | cons n ns ih =>
    intro acc hidc hshape hfresh hnd
    simp only [List.foldl_cons]
    have hstep : canonNodesOfNode idc acc n = acc ++ [(n.id, n)] := by
      unfold canonNodesOfNode
      rw [hidc n (List.mem_cons_self _ _)]
      show canonInsert _ acc n.id = _
      unfold canonInsert
      rw [hfresh n (List.mem_cons_self _ _)]
      simp only [Option.isSome_none, Bool.false_eq_true, if_false]
      obtain ⟨hl, c, hc⟩ := hshape n (List.mem_cons_self _ _)
      have : (⟨n.id, n.id, some ((n.category).getD "other".toList)⟩ : Node) = n := by
        obtain ⟨nid, nlabel, ncat⟩ := n
        simp only at hl hc ⊢
        rw [hl, hc]
        rfl
      rw [this]
    rw [hstep]
    rw [List.map_cons, List.nodup_cons] at hnd
    rw [ih _ (fun m hm => hidc m (List.mem_cons_of_mem _ hm))
      (fun m hm => hshape m (List.mem_cons_of_mem _ hm)) ?_ hnd.2]
    · simp
    · intro m hm
      rw [alookup_append_none (hfresh m (List.mem_cons_of_mem _ hm))]
      have hne : m.id ≠ n.id := by
        intro hh
        exact hnd.1 (by rw [← hh]; exact List.mem_map.mpr ⟨m, hm, rfl⟩)
      simp [alookup, hne]

theorem edFold_eq {idc : List (Str × List Str)} {ctn : List (Str × Node)} :
    ∀ (E : List Edge) (acc : List ((Str × Str) × (Nat × Nat))),
      (∀ e ∈ E, alookup e.source idc = some [e.source] ∧
        alookup e.target idc = some [e.target] ∧
        (alookup e.source ctn).isSome = true ∧
        (alookup e.target ctn).isSome = true ∧
        lexLtB e.source e.target = true) →
      (∀ e ∈ E, alookup (e.source, e.target) acc = none) →
      ((E.map (fun e => (e.source, e.target))).Nodup) →
      E.foldl (edgeDataOfEdge idc ctn) acc =
        acc ++ E.map (fun e =>
          ((e.source, e.target), (e.weight, e.recommendation_level))) := by
  intro E
  induction E with
  | nil => intro acc _ _ _; simp
  | cons e es ih =>
    intro acc hfacts hfresh hnd
    obtain ⟨hsi, hti, hsc, htc, hlt⟩ := hfacts e (List.mem_cons_self _ _)
    simp only [List.foldl_cons]
    have hguard : (decide (e.source ≠ e.target) && (alookup e.source ctn).isSome &&
        (alookup e.target ctn).isSome) = true := by
      rw [Bool.and_eq_true, Bool.and_eq_true, decide_eq_true_eq]
      exact ⟨⟨lexLtB_ne hlt, hsc⟩, htc⟩
    have hstep : edgeDataOfEdge idc ctn acc e =
        acc ++ [((e.source, e.target), (e.weight, e.recommendation_level))] := by
      unfold edgeDataOfEdge
      rw [hsi, hti]
      simp only [Option.getD_some, List.foldl_cons, List.foldl_nil]
      unfold edgeDataStep
      split <;> rename_i hcond
      · rw [sortPair_fst_eq_of_lt hlt]
        rw [hfresh e (List.mem_cons_self _ _)]
        rw [aset_absent _ _ _ (hfresh e (List.mem_cons_self _ _))]
        simp
      · exact absurd hguard hcond
    rw [hstep]
    rw [List.map_cons, List.nodup_cons] at hnd
    rw [ih _ (fun e' he' => hfacts e' (List.mem_cons_of_mem _ he')) ?_ hnd.2]
    · simp
    · intro e' he'
      rw [alookup_append_none (hfresh e' (List.mem_cons_of_mem _ he'))]
      have hne : (e'.source, e'.target) ≠ (e.source, e.target) := by
        intro hh
        exact hnd.1 (by rw [← hh]; exact List.mem_map.mpr ⟨e', he', rfl⟩)
      simp [alookup, hne]

end CulinaryCosmos

namespace CulinaryCosmos

theorem mergeOut_struct (ctn : List (Str × Node))
    (ed : List ((Str × Str) × (Nat × Nat))) (hctn : CtnInv ctn)
    (hed : EdInv ctn ed) :
    (∀ n ∈ ctn.map Prod.snd, n.label = n.id ∧ ∃ c, n.category = some c) ∧
    ((ctn.map Prod.snd).map Node.id).Nodup ∧
    (∀ e ∈ ed.map (fun kv => (⟨kv.1.1, kv.1.2, kv.2.1, kv.2.2, false⟩ : Edge)),
      lexLtB e.source e.target = true ∧
      e.source ∈ (ctn.map Prod.snd).map Node.id ∧
      e.target ∈ (ctn.map Prod.snd).map Node.id ∧
      e.from_affinity = false) ∧
    ((ed.map (fun kv => (⟨kv.1.1, kv.1.2, kv.2.1, kv.2.2, false⟩ : Edge))).map
      (fun e => (e.source, e.target))).Nodup := by
  have hids : (ctn.map Prod.snd).map Node.id = ctn.map Prod.fst := by
    rw [List.map_map]
    apply List.map_congr_left
    intro kv hkv
    exact (hctn.1 kv hkv).1
  refine ⟨?_, ?_, ?_, ?_⟩
  · intro n hn
    rw [List.mem_map] at hn
    obtain ⟨kv, hkv, he⟩ := hn
    obtain ⟨h1, h2, h3⟩ := hctn.1 kv hkv
    rw [← he]
    exact ⟨h2.trans h1.symm, h3⟩
  · rw [hids]
    exact hctn.2
  · intro e he
    rw [List.mem_map] at he
    obtain ⟨kv, hkv, he⟩ := he
    obtain ⟨h1, h2, h3⟩ := hed.1 kv hkv
    rw [← he]
    refine ⟨h3, ?_, ?_, rfl⟩
    · rw [hids]
      exact (alookup_isSome_iff _ _).mp h1
    · rw [hids]
      exact (alookup_isSome_iff _ _).mp h2
  · have : (ed.map (fun kv => (⟨kv.1.1, kv.1.2, kv.2.1, kv.2.2, false⟩ : Edge))).map
        (fun e => (e.source, e.target)) = ed.map Prod.fst := by
      rw [List.map_map]
      apply List.map_congr_left
      intro kv _
      exact Prod.mk.eta
    rw [this]
    exact hed.2

theorem mergePass_struct (g : Graph) :
    (∀ n ∈ (mergePass g).nodes, n.label = n.id ∧ ∃ c, n.category = some c) ∧
    ((mergePass g).nodes.map Node.id).Nodup ∧
    (∀ e ∈ (mergePass g).edges,
      lexLtB e.source e.target = true ∧
      e.source ∈ (mergePass g).nodes.map Node.id ∧
      e.target ∈ (mergePass g).nodes.map Node.id ∧
      e.from_affinity = false) ∧
    ((mergePass g).edges.map (fun e => (e.source, e.target))).Nodup := by
  simp only [mergePass]
  exact mergeOut_struct _ _
    (canonFold_inv _ _ ⟨(by intro kv h; cases h), (by simp)⟩)
    (edgeDataOfEdge_inv _ _ ⟨(by intro kv h; cases h), (by simp)⟩)

/-- Re-running the merge on a graph that is already in canonical form (every
node id a fixed point of the canonical mapping and accepted by the
single-ingredient filter) is a no-op. -/
theorem mergePass_noop (N : List Node) (E : List Edge)
    (hN1 : ∀ n ∈ N, n.label = n.id ∧ ∃ c, n.category = some c)
    (hN2 : (N.map Node.id).Nodup)
    (hE : ∀ e ∈ E, lexLtB e.source e.target = true ∧
      e.source ∈ N.map Node.id ∧ e.target ∈ N.map Node.id ∧
      e.from_affinity = false)
    (hkeys : (E.map (fun e => (e.source, e.target))).Nodup)
    (hsingle : ∀ n ∈ N, is_single_ingredient n.id = true ∧
      canonicalsFor n.id = [n.id]) :
    mergePass ⟨N, E⟩ = ⟨N, E⟩ := by
  have hfilter1 : N.filter (fun n => is_single_ingredient n.id) = N :=
    List.filter_eq_self.mpr (fun n hn => (hsingle n hn).1)
  have hfilter2 : N.filter (fun n => (N.map Node.id).contains n.id) = N :=
    List.filter_eq_self.mpr (fun n hn =>
      List.elem_eq_true_of_mem (List.mem_map.mpr ⟨n, hn, rfl⟩))
  have hfilter3 : E.filter (fun e => (N.map Node.id).contains e.source &&
      (N.map Node.id).contains e.target) = E :=
    List.filter_eq_self.mpr (fun e he => by
      rw [Bool.and_eq_true]
      exact ⟨List.elem_eq_true_of_mem (hE e he).2.1,
        List.elem_eq_true_of_mem (hE e he).2.2.1⟩)
  have hidc : ∀ n ∈ N, alookup n.id
      (N.foldl (fun acc n => aset n.id (canonicalsFor n.id) acc) []) =
      some [n.id] := by
    intro n hn
    rw [idc_lookup hN2 hn, (hsingle n hn).2]
  have hctnEq : N.foldl (canonNodesOfNode
      (N.foldl (fun acc n => aset n.id (canonicalsFor n.id) acc) [])) [] =
      N.map (fun n => (n.id, n)) := by
    rw [ctnFold_eq N [] hidc hN1 (fun _ _ => rfl) hN2]
    simp
  have hctnLookup : ∀ x ∈ N.map Node.id,
      (alookup x (N.map (fun n => (n.id, n)))).isSome = true := by
    intro x hx
    rw [alookup_isSome_iff, List.map_map]
    simpa using hx
  have hedEq : E.foldl (edgeDataOfEdge
      (N.foldl (fun acc n => aset n.id (canonicalsFor n.id) acc) [])
      (N.map (fun n => (n.id, n)))) [] =
      E.map (fun e => ((e.source, e.target), (e.weight, e.recommendation_level))) := by
    rw [edFold_eq E [] ?_ (fun _ _ => rfl) hkeys]
    · simp
    · intro e he
      obtain ⟨hlt, hsm, htm, -⟩ := hE e he
      refine ⟨?_, ?_, hctnLookup _ hsm, hctnLookup _ htm, hlt⟩
      · rw [List.mem_map] at hsm
        obtain ⟨n, hn, hid⟩ := hsm
        rw [← hid]
        exact hidc n hn
      · rw [List.mem_map] at htm
        obtain ⟨n, hn, hid⟩ := htm
        rw [← hid]
        exact hidc n hn
  show Graph.mk _ _ = _
  simp only [hfilter1, hfilter2, hfilter3, hctnEq, hedEq]
  congr 1
  · rw [List.map_map]
    exact (List.map_congr_left (fun n _ => rfl)).trans (List.map_id _)
  · rw [List.map_map]
    have : ∀ e ∈ E, (fun e => (⟨e.source, e.target, e.weight,
        e.recommendation_level, false⟩ : Edge)) e = e := by
      intro e he
      obtain ⟨-, -, -, hfa⟩ := hE e he
      obtain ⟨s, t, w, r, fa⟩ := e
      simp only at hfa
      rw [hfa]
    exact (List.map_congr_left this).trans (List.map_id _)

/-- C2 (amended): re-running canonicalization on an already-canonical graph
(one where every merged node id is a fixed point of the canonical mapping)
is a no-op; without that restriction the merge is not idempotent
(`c2_counterexample`). -/
theorem c2_amended (g : Graph)
    (h : ∀ n ∈ (mergePass g).nodes, is_single_ingredient n.id = true ∧
      canonicalsFor n.id = [n.id]) :
    mergePass (mergePass g) = mergePass g := by
  obtain ⟨hN1, hN2, hE, hkeys⟩ := mergePass_struct g
  exact mergePass_noop (mergePass g).nodes (mergePass g).edges hN1 hN2 hE hkeys h

/-- C2 witness: the apricot/pork graph merges to a canonical graph, on which
the merge is then a no-op. -/
theorem c2_witness : mergePass (mergePass c2WitnessGraph) = mergePass c2WitnessGraph :=
  c2_amended c2WitnessGraph (by decide)

end CulinaryCosmos


namespace CulinaryCosmos

/-! ### Character-level lemmas for the normalizer -/

/-- Converting a valid code point to a character and back is the identity. -/
theorem charToNatOfNat (n : Nat) (h : n.isValidChar) : (Char.ofNat n).toNat = n := by
  rw [Char.ofNat, dif_pos h]
  simp [Char.ofNatAux, Char.toNat, UInt32.toNat, BitVec.ofNatLt]

/-- Characterization of `Char.isUpper` in terms of the code point. -/
theorem isUpper_iff (c : Char) : c.isUpper = true ↔ (65 ≤ c.toNat ∧ c.toNat ≤ 90) := by
  unfold Char.isUpper
  rw [Bool.and_eq_true, decide_eq_true_iff, decide_eq_true_iff]
  exact Iff.rfl

/-- Lowercasing never yields an uppercase ASCII letter. -/
theorem toLower_not_upper (c : Char) : (Char.toLower c).isUpper = false := by
  rw [← Bool.not_eq_true, isUpper_iff]
  unfold Char.toLower
  by_cases h : c.toNat ≥ 65 ∧ c.toNat ≤ 90
  · simp only [if_pos h]
    have hv : (c.toNat + 32).isValidChar := by
      unfold Nat.isValidChar; left; omega
    rw [charToNatOfNat _ hv]
    omega
  · simp only [if_neg h]
    omega

/-- Lowercasing fixes characters that are not uppercase ASCII letters. -/
theorem toLower_eq_self {c : Char} (h : c.isUpper = false) : Char.toLower c = c := by
  unfold Char.toLower
  rw [if_neg]
  intro hc
  rw [← Bool.not_eq_true, isUpper_iff] at h
  exact h hc

/-- If lowercasing lands outside the lowercase ASCII range, the input already equalled the output. -/
theorem toLower_target {c d : Char} (h : Char.toLower c = d)
    (hd : ¬(97 ≤ d.toNat ∧ d.toNat ≤ 122)) : c = d := by
  unfold Char.toLower at h
  by_cases hc : c.toNat ≥ 65 ∧ c.toNat ≤ 90
  · rw [if_pos hc] at h
    exfalso
    apply hd
    have hv : (c.toNat + 32).isValidChar := by
      unfold Nat.isValidChar; left; omega
    rw [← h, charToNatOfNat _ hv]
    omega
  · rwa [if_neg hc] at h

/-- Whitespace membership expressed on code points. -/
theorem pyIsWs_toNat (c : Char) :
    pyIsWs c = (decide (c.toNat = 32) || decide (c.toNat = 9) || decide (c.toNat = 10) ||
      decide (c.toNat = 13) || decide (c.toNat = 11) || decide (c.toNat = 12)) := by
  unfold pyIsWs
  congr 1
  · congr 1
    · congr 1
      · congr 1
        · congr 1 <;> rw [Bool.eq_iff_iff, decide_eq_true_iff, decide_eq_true_iff] <;>
            exact ⟨fun hh => by rw [hh]; rfl, fun hh => charEqOfToNat (by rw [hh]; rfl)⟩
        · rw [Bool.eq_iff_iff, decide_eq_true_iff, decide_eq_true_iff]
          exact ⟨fun hh => by rw [hh]; rfl, fun hh => charEqOfToNat (by rw [hh]; rfl)⟩
      · rw [Bool.eq_iff_iff, decide_eq_true_iff, decide_eq_true_iff]
        exact ⟨fun hh => by rw [hh]; rfl, fun hh => charEqOfToNat (by rw [hh]; rfl)⟩
    · rw [Bool.eq_iff_iff, decide_eq_true_iff, decide_eq_true_iff]
      exact ⟨fun hh => by rw [hh]; rfl, fun hh => charEqOfToNat (by rw [hh]; rfl)⟩
  · rw [Bool.eq_iff_iff, decide_eq_true_iff, decide_eq_true_iff]
    exact ⟨fun hh => by rw [hh]; rfl, fun hh => charEqOfToNat (by rw [hh]; rfl)⟩

/-- Lowercasing preserves whitespace status. -/
theorem toLower_ws (c : Char) : pyIsWs (Char.toLower c) = pyIsWs c := by
  by_cases h : c.isUpper = true
  · rw [isUpper_iff] at h
    have hlow : 97 ≤ (Char.toLower c).toNat ∧ (Char.toLower c).toNat ≤ 122 := by
      unfold Char.toLower
      rw [if_pos (by omega)]
      have hv : (c.toNat + 32).isValidChar := by
        unfold Nat.isValidChar; left; omega
      rw [charToNatOfNat _ hv]
      omega
    rw [pyIsWs_toNat, pyIsWs_toNat]
    have h1 := hlow.1
    have h2 := hlow.2
    have h3 := h.1
    have h4 := h.2
    rw [Bool.eq_iff_iff]
    constructor <;> intro hh <;> exfalso <;> revert hh <;>
      simp only [Bool.or_eq_true, decide_eq_true_iff] <;> omega
  · rw [toLower_eq_self (by simpa using h)]

end CulinaryCosmos

namespace CulinaryCosmos

/-! ### String-level lemmas for the normalizer -/

/-- A `dropWhile` over elements that all fail the predicate is the identity. -/
theorem dropWhile_id_of_all {α : Type} (p : α → Bool) (l : List α)
    (h : ∀ c ∈ l, p c = false) : l.dropWhile p = l := by
  cases l with
  | nil => rfl
  | cons c t => rw [List.dropWhile_cons, if_neg (by simp [h c (by simp)])]

/-- `dropWhile` keeps a list whose head fails the predicate. -/
theorem dropWhile_head_false {α : Type} {p : α → Bool} {c : α} (l : List α)
    (h : p c = false) : (c :: l).dropWhile p = c :: l := by
  rw [List.dropWhile_cons, if_neg (by rw [h]; simp)]

/-- A nonempty `dropWhile`-fixed list stays fixed after appending on the right. -/
theorem dropWhile_append_stable {α : Type} {p : α → Bool} {l : List α} (r : List α)
    (hfix : l.dropWhile p = l) (hne : l ≠ []) : (l ++ r).dropWhile p = l ++ r := by
  cases l with
  | nil => exact absurd rfl hne
  | cons c t =>
      have hc : p c = false := by
        by_contra hcc
        rw [Bool.not_eq_false] at hcc
        rw [List.dropWhile_cons, if_pos hcc] at hfix
        have := List.Sublist.length_le (List.dropWhile_sublist (l := t) p)
        rw [hfix] at this
        simp at this
      rw [List.cons_append]
      exact dropWhile_head_false _ hc

/-- A prefix stays a prefix after appending on the right. -/
theorem pfxExtend {α : Type} [BEq α] [LawfulBEq α] (pat : List α) :
    ∀ m v : List α, pat.isPrefixOf m = true → pat.isPrefixOf (m ++ v) = true := by
  induction pat with
  | nil => intro m v _; simp [List.isPrefixOf]
  | cons p ps ih =>
      intro m v h
      cases m with
      | nil => simp [List.isPrefixOf] at h
      | cons a t =>
          rw [List.cons_append]
          show (p == a && ps.isPrefixOf (t ++ v)) = true
          have h' : (p == a && ps.isPrefixOf t) = true := h
          rw [Bool.and_eq_true] at h' ⊢
          exact ⟨h'.1, ih t v h'.2⟩

/-- A space-free prefix of `x ++ ' ' :: y` is already a prefix of `x`. -/
theorem pfxCross (pat : Str) (hsp : ∀ c ∈ pat, c ≠ ' ') :
    ∀ x y : Str, pat.isPrefixOf (x ++ ' ' :: y) = true → pat.isPrefixOf x = true := by
  induction pat with
  | nil => intro x y _; simp [List.isPrefixOf]
  | cons p ps ih =>
      intro x y h
      cases x with
      | nil =>
          exfalso
          have h' : (p == ' ' && ps.isPrefixOf y) = true := h
          rw [Bool.and_eq_true, beq_iff_eq] at h'
          exact hsp p (by simp) h'.1
      | cons a t =>
          rw [List.cons_append] at h
          have h' : (p == a && ps.isPrefixOf (t ++ ' ' :: y)) = true := h
          rw [Bool.and_eq_true] at h'
          show (p == a && ps.isPrefixOf t) = true
          rw [Bool.and_eq_true]
          exact ⟨h'.1, ih (fun c hc => hsp c (by simp [hc])) t y h'.2⟩

/-- Substring containment extends to the right. -/
theorem containsSub_append_right {pat : Str} (m v : Str)
    (h : containsSub m pat = true) : containsSub (m ++ v) pat = true := by
  induction m with
  | nil =>
      cases v with
      | nil => exact h
      | cons c t =>
          show (pat.isPrefixOf (c :: t) || containsSub t pat) = true
          rw [Bool.or_eq_true]
          left
          have h0 : pat.isPrefixOf [] = true := h
          exact pfxExtend pat [] (c :: t) h0
  | cons c m' ih =>
      have h' : (pat.isPrefixOf (c :: m') || containsSub m' pat) = true := h
      rw [Bool.or_eq_true] at h'
      show (pat.isPrefixOf (c :: m' ++ v) || containsSub (m' ++ v) pat) = true
      rw [Bool.or_eq_true]
      rcases h' with h' | h'
      · left
        have hx := pfxExtend pat (c :: m') v h'
        rwa [List.cons_append] at hx
      · right
        exact ih h'

/-- Substring containment is preserved by consing a character in front. -/
theorem containsSub_cons {pat : Str} (c : Char) (t : Str)
    (h : containsSub t pat = true) : containsSub (c :: t) pat = true := by
  show (pat.isPrefixOf (c :: t) || containsSub t pat) = true
  rw [Bool.or_eq_true]
  right
  exact h

/-- Substring containment extends to the left. -/
theorem containsSub_append_left {pat : Str} (u m : Str)
    (h : containsSub m pat = true) : containsSub (u ++ m) pat = true := by
  induction u with
  | nil => exact h
  | cons c u' ih => exact containsSub_cons c (u' ++ m) ih

/-- Substring containment lifts from an infix to the whole string. -/
theorem containsSub_mid {pat s m : Str} (u v : Str) (hs : s = u ++ m ++ v)
    (h : containsSub m pat = true) : containsSub s pat = true := by
  rw [hs, List.append_assoc]
  exact containsSub_append_left u (m ++ v) (containsSub_append_right m v h)

/-- `intercalate` over a two-or-more-element list peels the first word. -/
theorem intercalate_cons2 (sep : Str) (x y : Str) (t : List Str) :
    List.intercalate sep (x :: y :: t) = x ++ sep ++ List.intercalate sep (y :: t) := by
  simp [List.intercalate, List.intersperse]

/-- `intercalate` of a list whose first word is nonempty is nonempty. -/
theorem intercalate_ne_nil (sep : Str) (y : Str) (t : List Str) (hy : y ≠ []) :
    List.intercalate sep (y :: t) ≠ [] := by
  cases t with
  | nil => simpa [List.intercalate] using hy
  | cons z t' =>
      rw [intercalate_cons2]
      simp only [ne_eq, List.append_assoc, List.append_eq_nil]
      intro hh
      exact hy hh.1

/-- Every character of a space-joined list comes from a word or is a space. -/
theorem mem_intercalate_sp {c : Char} :
    ∀ L : List Str, c ∈ List.intercalate [' '] L → (∃ w ∈ L, c ∈ w) ∨ c = ' ' := by
  intro L
  induction L with
  | nil => intro h; simp [List.intercalate] at h
  | cons w t ih =>
      intro h
      cases t with
      | nil =>
          simp only [List.intercalate, List.intersperse, List.flatten] at h
          left
          exact ⟨w, by simp, by simpa using h⟩
      | cons y t' =>
          rw [intercalate_cons2, List.append_assoc, List.mem_append] at h
          rcases h with h | h
          · left; exact ⟨w, by simp, h⟩
          · rw [List.mem_append] at h
            rcases h with h | h
            · right; simpa using h
            · rcases ih h with ⟨w', hw', hcw'⟩ | h
              · left; exact ⟨w', by simp [hw'], hcw'⟩
              · right; exact h

/-- `pyStrip s` is an infix of `s`. -/
theorem pyStrip_decomp (s : Str) :
    s = s.takeWhile pyIsWs ++ pyStrip s ++
      ((s.dropWhile pyIsWs).reverse.takeWhile pyIsWs).reverse := by
  unfold pyStrip dropTrailWhile
  conv_lhs => rw [← List.takeWhile_append_dropWhile (p := pyIsWs) (l := s)]
  rw [List.append_assoc]
  congr 1
  conv_lhs => rw [← List.reverse_reverse (s.dropWhile pyIsWs)]
  conv_lhs =>
    rw [← List.takeWhile_append_dropWhile (p := pyIsWs) (l := (s.dropWhile pyIsWs).reverse)]
  rw [List.reverse_append]

/-- Characters of `pyStrip s` are characters of `s`. -/
theorem mem_pyStrip {c : Char} {s : Str} (h : c ∈ pyStrip s) : c ∈ s := by
  unfold pyStrip dropTrailWhile at h
  rw [List.mem_reverse] at h
  have h2 := (List.dropWhile_sublist (l := (s.dropWhile pyIsWs).reverse) pyIsWs).subset h
  rw [List.mem_reverse] at h2
  exact (List.dropWhile_sublist (l := s) pyIsWs).subset h2

end CulinaryCosmos

namespace CulinaryCosmos

/-! ### Word-splitting lemmas -/

/-- Words produced by the splitter are nonempty and whitespace-free. -/
theorem wordsAux_props :
    ∀ (s cur : Str), (∀ c ∈ cur, pyIsWs c = false) →
      ∀ w ∈ wordsAux cur s, w ≠ [] ∧ ∀ c ∈ w, pyIsWs c = false := by
  intro s
  induction s with
  | nil =>
      intro cur hcur w hw
      simp only [wordsAux] at hw
      split at hw
      · simp at hw
      · rw [List.mem_singleton] at hw
        subst hw
        refine ⟨?_, ?_⟩
        · simp only [ne_eq, List.reverse_eq_nil_iff]
          intro hh
          simp [hh, List.isEmpty_nil] at *
        · intro c hc
          exact hcur c (List.mem_reverse.mp hc)
  | cons c t ih =>
      intro cur hcur w hw
      simp only [wordsAux] at hw
      by_cases hws : pyIsWs c
      · rw [if_pos hws] at hw
        split at hw
        · exact ih [] (by simp) w hw
        · rw [List.mem_cons] at hw
          rcases hw with hw | hw
          · subst hw
            refine ⟨?_, ?_⟩
            · simp only [ne_eq, List.reverse_eq_nil_iff]
              intro hh
              simp [hh, List.isEmpty_nil] at *
            · intro d hd
              exact hcur d (List.mem_reverse.mp hd)
          · exact ih [] (by simp) w hw
      · rw [if_neg hws] at hw
        refine ih (c :: cur) ?_ w hw
        intro d hd
        rw [List.mem_cons] at hd
        rcases hd with hd | hd
        · subst hd; simpa using hws
        · exact hcur d hd

/-- Characters of the produced words come from the accumulator or the input. -/
theorem wordsAux_chars :
    ∀ (s cur w : Str), w ∈ wordsAux cur s → ∀ c ∈ w, c ∈ cur ∨ c ∈ s := by
  intro s
  induction s with
  | nil =>
      intro cur w hw c hc
      simp only [wordsAux] at hw
      split at hw
      · simp at hw
      · rw [List.mem_singleton] at hw
        subst hw
        left
        exact List.mem_reverse.mp hc
  | cons a t ih =>
      intro cur w hw c hc
      simp only [wordsAux] at hw
      by_cases hws : pyIsWs a
      · rw [if_pos hws] at hw
        split at hw
        · rcases ih [] w hw c hc with h | h
          · simp at h
          · right; simp [h]
        · rw [List.mem_cons] at hw
          rcases hw with hw | hw
          · subst hw
            left
            exact List.mem_reverse.mp hc
          · rcases ih [] w hw c hc with h | h
            · simp at h
            · right; simp [h]
      · rw [if_neg hws] at hw
        rcases ih (a :: cur) w hw c hc with h | h
        · rw [List.mem_cons] at h
          rcases h with h | h
          · right; simp [h]
          · left; exact h
        · right; simp [h]

/-- Scanning a whitespace-free word just moves it into the accumulator. -/
theorem wordsAux_scan :
    ∀ (w : Str), (∀ c ∈ w, pyIsWs c = false) →
      ∀ (s cur : Str), wordsAux cur (w ++ s) = wordsAux (w.reverse ++ cur) s := by
  intro w
  induction w with
  | nil => intro _ s cur; simp
  | cons c w' ih =>
      intro hw s cur
      rw [List.cons_append]
      show wordsAux cur (c :: (w' ++ s)) = _
      simp only [wordsAux]
      rw [if_neg (by simp [hw c (by simp)])]
      rw [ih (fun d hd => hw d (by simp [hd])) s (c :: cur)]
      congr 1
      simp

/-- Splitting a space-joined list of nonempty whitespace-free words recovers it. -/
theorem pyWords_intercalate :
    ∀ L : List Str, (∀ w ∈ L, w ≠ [] ∧ ∀ c ∈ w, pyIsWs c = false) →
      pyWords (List.intercalate [' '] L) = L := by
  intro L
  induction L with
  | nil => intro _; rfl
  | cons w t ih =>
      intro hL
      obtain ⟨hwne, hwws⟩ := hL w (by simp)
      cases t with
      | nil =>
          have h1 : List.intercalate [' '] [w] = w := by simp [List.intercalate]
          rw [h1]
          unfold pyWords
          have h2 := wordsAux_scan w hwws [] []
          rw [List.append_nil] at h2
          rw [h2, List.append_nil]
          simp only [wordsAux]
          rw [if_neg (by simp [List.isEmpty_iff, hwne])]
          simp
      | cons y t' =>
          rw [intercalate_cons2, List.append_assoc]
          unfold pyWords
          have h2 := wordsAux_scan w hwws ([' '] ++ List.intercalate [' '] (y :: t')) []
          rw [h2, List.append_nil, List.singleton_append]
          show wordsAux w.reverse (' ' :: List.intercalate [' '] (y :: t')) = _
          simp only [wordsAux]
          rw [if_pos (by decide)]
          rw [if_neg (by simp [List.isEmpty_iff, hwne])]
          rw [List.reverse_reverse]
          have ih' := ih (fun v hv => hL v (by simp [hv]))
          unfold pyWords at ih'
          rw [ih']

/-- Collapsing whitespace is idempotent. -/
theorem collapseWs_idem (s : Str) : collapseWs (collapseWs s) = collapseWs s := by
  show List.intercalate [' '] (pyWords (List.intercalate [' '] (pyWords s))) = _
  rw [pyWords_intercalate (pyWords s) (wordsAux_props s [] (by simp))]
  rfl

/-- A collapsed string has no leading or trailing whitespace. -/
theorem pyStrip_collapseWs (s : Str) : pyStrip (collapseWs s) = collapseWs s := by
  have hprops := wordsAux_props s [] (by simp)
  unfold collapseWs
  rcases hL : pyWords s with _ | ⟨w, t⟩
  · simp [List.intercalate, pyStrip, dropTrailWhile]
  · have hprops2 : ∀ v ∈ pyWords s, v ≠ [] ∧ ∀ c ∈ v, pyIsWs c = false := hprops
    rw [hL] at hprops2
    obtain ⟨hwne, hwws⟩ := hprops2 w (by simp)
    have hfront : (List.intercalate [' '] (w :: t)).dropWhile pyIsWs =
        List.intercalate [' '] (w :: t) := by
      cases t with
      | nil =>
          simp only [List.intercalate, List.intersperse, List.flatten, List.append_nil]
          exact dropWhile_id_of_all pyIsWs w hwws
      | cons y t' =>
          rw [intercalate_cons2, List.append_assoc]
          refine dropWhile_append_stable _ ?_ hwne
          exact dropWhile_id_of_all pyIsWs w hwws
    have hback : ∀ M : List Str, (∀ v ∈ M, v ≠ [] ∧ ∀ c ∈ v, pyIsWs c = false) →
        (List.intercalate [' '] M).reverse.dropWhile pyIsWs =
          (List.intercalate [' '] M).reverse := by
      intro M
      induction M with
      | nil => intro _; simp [List.intercalate]
      | cons v M' ihM =>
          intro hM
          obtain ⟨hvne, hvws⟩ := hM v (by simp)
          cases M' with
          | nil =>
              simp only [List.intercalate, List.intersperse, List.flatten, List.append_nil]
              refine dropWhile_id_of_all pyIsWs v.reverse ?_
              intro c hc
              exact hvws c (List.mem_reverse.mp hc)
          | cons z M'' =>
              rw [intercalate_cons2, List.append_assoc, List.reverse_append]
              have hzne : z ≠ [] := (hM z (by simp)).1
              refine dropWhile_append_stable _ ?_ ?_
              · rw [List.reverse_append]
                refine dropWhile_append_stable _ ?_ ?_
                · exact ihM (fun v' hv' => hM v' (by simp [hv']))
                · simp only [ne_eq, List.reverse_eq_nil_iff]
                  exact intercalate_ne_nil [' '] z M'' hzne
              · simp
    unfold pyStrip dropTrailWhile
    rw [hfront, hback (w :: t) hprops2, List.reverse_reverse]

/-- A substring of some produced word is a substring of the accumulator-plus-input. -/
theorem wordsAux_containsSub {pat : Str} :
    ∀ (s cur w : Str), w ∈ wordsAux cur s → containsSub w pat = true →
      containsSub (cur.reverse ++ s) pat = true := by
  intro s
  induction s with
  | nil =>
      intro cur w hw hc
      simp only [wordsAux] at hw
      split at hw
      · simp at hw
      · rw [List.mem_singleton] at hw
        subst hw
        rw [List.append_nil]
        exact hc
  | cons a t ih =>
      intro cur w hw hc
      simp only [wordsAux] at hw
      by_cases hws : pyIsWs a
      · rw [if_pos hws] at hw
        have hstep : containsSub t pat = true → containsSub (cur.reverse ++ a :: t) pat = true := by
          intro hh
          refine containsSub_append_left _ _ (containsSub_cons a t hh)
        split at hw
        · exact hstep (by simpa using ih [] w hw hc)
        · rw [List.mem_cons] at hw
          rcases hw with hw | hw
          · subst hw
            rw [show cur.reverse ++ a :: t = cur.reverse ++ (a :: t) from rfl]
            exact containsSub_append_right _ _ hc
          · exact hstep (by simpa using ih [] w hw hc)
      · rw [if_neg hws] at hw
        have := ih (a :: cur) w hw hc
        rw [List.reverse_cons, List.append_assoc, List.singleton_append] at this
        exact this

/-- A nonempty space-free substring of a collapsed string occurs in the original. -/
theorem containsSub_collapseWs {pat s : Str} (hne : pat ≠ []) (hsp : ∀ c ∈ pat, c ≠ ' ')
    (h : containsSub (collapseWs s) pat = true) : containsSub s pat = true := by
  have hcc1 : ∀ w r : Str, containsSub (w ++ ' ' :: r) pat = true →
      containsSub w pat = true ∨ containsSub r pat = true := by
    intro w
    induction w with
    | nil =>
        intro r h0
        right
        have h0' : (pat.isPrefixOf (' ' :: r) || containsSub r pat) = true := h0
        rw [Bool.or_eq_true] at h0'
        rcases h0' with h0' | h0'
        · exfalso
          have := pfxCross pat hsp [] r (by simpa using h0')
          cases pat with
          | nil => exact hne rfl
          | cons p ps => simp [List.isPrefixOf] at this
        · exact h0'
    | cons a w' ihw =>
        intro r h0
        rw [List.cons_append] at h0
        have h0' : (pat.isPrefixOf (a :: (w' ++ ' ' :: r)) || containsSub (w' ++ ' ' :: r) pat)
            = true := h0
        rw [Bool.or_eq_true] at h0'
        rcases h0' with h0' | h0'
        · left
          have := pfxCross pat hsp (a :: w') r (by rwa [List.cons_append])
          show (pat.isPrefixOf (a :: w') || containsSub w' pat) = true
          rw [Bool.or_eq_true]
          left
          exact this
        · rcases ihw r h0' with hh | hh
          · left; exact containsSub_cons a w' hh
          · right; exact hh
  have hcc2 : ∀ L : List Str, containsSub (List.intercalate [' '] L) pat = true →
      ∃ w ∈ L, containsSub w pat = true := by
    intro L
    induction L with
    | nil =>
        intro h0
        exfalso
        cases pat with
        | nil => exact hne rfl
        | cons p ps => simp [List.intercalate, containsSub, List.isPrefixOf] at h0
    | cons w t ihL =>
        intro h0
        cases t with
        | nil =>
            refine ⟨w, by simp, ?_⟩
            simpa [List.intercalate] using h0
        | cons y t' =>
            rw [intercalate_cons2, List.append_assoc, List.singleton_append] at h0
            rcases hcc1 w _ h0 with hh | hh
            · exact ⟨w, by simp, hh⟩
            · obtain ⟨v, hv, hcv⟩ := ihL hh
              exact ⟨v, by simp [hv], hcv⟩
  obtain ⟨w, hw, hcw⟩ := hcc2 (pyWords s) h
  simpa using wordsAux_containsSub s [] w hw hcw

end CulinaryCosmos

namespace CulinaryCosmos

/-! ### Identity lemmas for the normalizer substitution stages -/

/-- `lstrip('*')` fixes a star-free string. -/
theorem lstripStar_id {s : Str} (h : ∀ c ∈ s, c ≠ '*') : lstripStar s = s := by
  refine dropWhile_id_of_all _ s ?_
  intro c hc
  simp [h c hc]

/-- The dash substitution fixes a dash-free string. -/
theorem dashSubAux_id :
    ∀ (s com pend : Str), (∀ c ∈ s, c ≠ '—') →
      dashSubAux com pend s = com ++ pend ++ s := by
  intro s
  induction s with
  | nil => intro com pend _; simp [dashSubAux]
  | cons c t ih =>
      intro com pend h
      simp only [dashSubAux]
      by_cases hws : pyIsWs c
      · rw [if_pos hws, ih com (pend ++ [c]) (fun d hd => h d (by simp [hd]))]
        simp
      · rw [if_neg hws, if_neg (by simp [h c (by simp)]),
          ih (com ++ pend ++ [c]) [] (fun d hd => h d (by simp [hd]))]
        simp

theorem dashSub_id {s : Str} (h : ∀ c ∈ s, c ≠ '—') : dashSub s = s := by
  unfold dashSub
  rw [dashSubAux_id s [] [] h]
  simp

/-- The parenthesized-group substitution fixes a string with no opening paren. -/
theorem parenSubAux_id :
    ∀ (s : Str) (fuel : Nat) (com pend : Str), (∀ c ∈ s, c ≠ '(') →
      parenSubAux fuel com pend s = com ++ pend ++ s := by
  intro s
  induction s with
  | nil =>
      intro fuel com pend _
      cases fuel with
      | zero => rfl
      | succ f => simp [parenSubAux]
  | cons c t ih =>
      intro fuel com pend h
      cases fuel with
      | zero => rfl
      | succ f =>
          simp only [parenSubAux]
          by_cases hws : pyIsWs c
          · rw [if_pos hws, ih f com (pend ++ [c]) (fun d hd => h d (by simp [hd]))]
            simp
          · rw [if_neg hws, if_neg (h c (by simp)),
              ih f (com ++ pend ++ [c]) [] (fun d hd => h d (by simp [hd]))]
            simp

theorem parenSub_id {s : Str} (h : ∀ c ∈ s, c ≠ '(') : parenSub s = s := by
  unfold parenSub
  rw [parenSubAux_id s (s.length + 1) [] [] h]
  simp

/-- The orphan-open substitution fixes a string with no `(` or `[`. -/
theorem orphanOpenAux_id :
    ∀ (s : Str) (fuel : Nat) (com : Str), (∀ c ∈ s, c ≠ '(' ∧ c ≠ '[') →
      orphanOpenAux fuel com s = com ++ s := by
  intro s
  induction s with
  | nil =>
      intro fuel com _
      cases fuel with
      | zero => rfl
      | succ f => simp [orphanOpenAux]
  | cons c t ih =>
      intro fuel com h
      cases fuel with
      | zero => rfl
      | succ f =>
          simp only [orphanOpenAux]
          rw [if_neg (by simp [(h c (by simp)).1, (h c (by simp)).2]),
            ih f (com ++ [c]) (fun d hd => h d (by simp [hd]))]
          simp

theorem orphanOpenSub_id {s : Str} (h : ∀ c ∈ s, c ≠ '(' ∧ c ≠ '[') :
    orphanOpenSub s = s := by
  unfold orphanOpenSub
  rw [orphanOpenAux_id s (s.length + 1) [] h]
  simp

/-- The orphan-close substitution fixes a string with no `)` or `]`. -/
theorem orphanCloseAux_id :
    ∀ (s com pend : Str), (∀ c ∈ s, c ≠ ')' ∧ c ≠ ']') →
      orphanCloseAux com pend s = com ++ pend ++ s := by
  intro s
  induction s with
  | nil => intro com pend _; simp [orphanCloseAux]
  | cons c t ih =>
      intro com pend h
      simp only [orphanCloseAux]
      by_cases hws : pyIsWs c
      · rw [if_pos hws, ih com (pend ++ [c]) (fun d hd => h d (by simp [hd]))]
        simp
      · rw [if_neg hws, if_neg (by simp [(h c (by simp)).1, (h c (by simp)).2]),
          ih (com ++ pend ++ [c]) [] (fun d hd => h d (by simp [hd]))]
        simp

theorem orphanCloseSub_id {s : Str} (h : ∀ c ∈ s, c ≠ ')' ∧ c ≠ ']') :
    orphanCloseSub s = s := by
  unfold orphanCloseSub
  rw [orphanCloseAux_id s [] [] h]
  simp

/-- The abbreviation substitution fixes a string containing neither `esp.` nor `e.g.`. -/
theorem espSubAux_id :
    ∀ (s : Str) (fuel : Nat) (pw : Bool),
      containsSub s ("esp.".toList) = false → containsSub s ("e.g.".toList) = false →
      espSubAux fuel pw s = s := by
  intro s
  induction s with
  | nil =>
      intro fuel pw _ _
      cases fuel with
      | zero => rfl
      | succ f => rfl
  | cons c t ih =>
      intro fuel pw he hg
      have he' : (("esp.".toList).isPrefixOf (c :: t) || containsSub t ("esp.".toList))
          = false := he
      have hg' : (("e.g.".toList).isPrefixOf (c :: t) || containsSub t ("e.g.".toList))
          = false := hg
      rw [Bool.or_eq_false_iff] at he' hg'
      cases fuel with
      | zero => rfl
      | succ f =>
          simp only [espSubAux]
          rw [if_neg (by rw [he'.1, hg'.1]; simp)]
          rw [ih f (isWordChar c) he'.2 hg'.2]

theorem espSub_id {s : Str}
    (he : containsSub s ("esp.".toList) = false)
    (hg : containsSub s ("e.g.".toList) = false) : espSub s = s := by
  unfold espSub
  exact espSubAux_id s (s.length + 1) false he hg

end CulinaryCosmos

namespace CulinaryCosmos

/-! ### Normalizer idempotence on marker-free inputs -/

/-- No lowercase ASCII letter is a marker character. -/
theorem isMarker_lc {d : Char} (h1 : 97 ≤ d.toNat) (h2 : d.toNat ≤ 122) :
    isMarker d = false := by
  unfold isMarker
  simp only [Bool.or_eq_false_iff, decide_eq_false_iff_not]
  refine ⟨⟨⟨⟨⟨?_, ?_⟩, ?_⟩, ?_⟩, ?_⟩, ?_⟩ <;>
    (intro hh; apply_fun Char.toNat at hh;
      (first
        | rw [show ('(' : Char).toNat = 40 from rfl] at hh
        | rw [show (')' : Char).toNat = 41 from rfl] at hh
        | rw [show ('[' : Char).toNat = 91 from rfl] at hh
        | rw [show (']' : Char).toNat = 93 from rfl] at hh
        | rw [show ('—' : Char).toNat = 8212 from rfl] at hh
        | rw [show ('*' : Char).toNat = 42 from rfl] at hh);
      omega)

/-- If lowercasing a character produces a marker, it already was one. -/
theorem isMarker_toLower {c : Char} (h : isMarker (Char.toLower c) = true) :
    isMarker c = true := by
  by_cases hu : c.isUpper = true
  · exfalso
    rw [isUpper_iff] at hu
    have hl : 97 ≤ (Char.toLower c).toNat ∧ (Char.toLower c).toNat ≤ 122 := by
      unfold Char.toLower
      rw [if_pos (by omega)]
      have hv : (c.toNat + 32).isValidChar := by unfold Nat.isValidChar; left; omega
      rw [charToNatOfNat _ hv]
      omega
    rw [isMarker_lc hl.1 hl.2] at h
    exact absurd h (by simp)
  · rwa [toLower_eq_self (by simpa using hu)] at h

/-- Lowercasing a non-marker character yields a non-marker character. -/
theorem toLower_isMarker_false {c : Char} (h : isMarker c = false) :
    isMarker (Char.toLower c) = false := by
  by_contra hh
  rw [Bool.not_eq_false] at hh
  exact absurd (isMarker_toLower hh) (by simp [h])

/-- Characters of a collapsed string come from the original or are spaces. -/
theorem mem_collapseWs {c : Char} {s : Str} (h : c ∈ collapseWs s) : c ∈ s ∨ c = ' ' := by
  unfold collapseWs at h
  rcases mem_intercalate_sp (pyWords s) h with ⟨w, hw, hcw⟩ | h
  · rcases wordsAux_chars s [] w hw c hcw with h | h
    · simp at h
    · left; exact h
  · right; exact h

/-- Lowercasing fixes a string with no uppercase ASCII letters. -/
theorem pyLower_fix {s : Str} (h : ∀ c ∈ s, c.isUpper = false) : pyLower s = s := by
  unfold pyLower
  have := List.map_congr_left (l := s) (f := Char.toLower) (g := id)
    (fun c hc => toLower_eq_self (h c hc))
  simpa using this

/-- On strip-lowered input free of markers and abbreviations, the normalizer is
just whitespace collapsing after strip and lowercase. -/
theorem normalize_reduced (s : Str)
    (hm : ∀ c ∈ pyLower (pyStrip s), isMarker c = false)
    (he : containsSub (pyLower (pyStrip s)) ("esp.".toList) = false)
    (hg : containsSub (pyLower (pyStrip s)) ("e.g.".toList) = false) :
    normalize_ingredient s = collapseWs (pyLower (pyStrip s)) := by
  unfold normalize_ingredient
  have hm' : ∀ c ∈ pyLower (pyStrip s), c ≠ '(' ∧ c ≠ ')' ∧ c ≠ '[' ∧ c ≠ ']' ∧
      c ≠ '—' ∧ c ≠ '*' := by
    intro c hc
    have hcm := hm c hc
    unfold isMarker at hcm
    simp only [Bool.or_eq_false_iff, decide_eq_false_iff_not] at hcm
    tauto
  rw [lstripStar_id (fun c hc => (hm' c hc).2.2.2.2.2)]
  rw [dashSub_id (fun c hc => (hm' c hc).2.2.2.2.1)]
  rw [parenSub_id (fun c hc => (hm' c hc).1)]
  rw [orphanOpenSub_id (fun c hc => ⟨(hm' c hc).1, (hm' c hc).2.2.1⟩)]
  rw [orphanCloseSub_id (fun c hc => ⟨(hm' c hc).2.1, (hm' c hc).2.2.2.1⟩)]
  rw [espSub_id he hg]

end CulinaryCosmos

namespace CulinaryCosmos

/-- C8 (amended): `normalize_ingredient` is idempotent on inputs free of the
marker characters `(`, `)`, `[`, `]`, the em dash and `*`, and whose lowercase
form contains neither `esp.` nor `e.g.`; on such inputs the normalizer reduces
to strip, lowercase and whitespace collapsing, and a second application is the
identity. -/
theorem c8_amended (s : Str)
    (hm : ∀ c ∈ s, isMarker c = false)
    (he : containsSub (pyLower s) ("esp.".toList) = false)
    (hg : containsSub (pyLower s) ("e.g.".toList) = false) :
    normalize_ingredient (normalize_ingredient s) = normalize_ingredient s := by
  have hmt : ∀ c ∈ pyLower (pyStrip s), isMarker c = false := by
    intro c hc
    unfold pyLower at hc
    rw [List.mem_map] at hc
    obtain ⟨c', hc', rfl⟩ := hc
    exact toLower_isMarker_false (hm c' (mem_pyStrip hc'))
  have hlow : pyLower s = pyLower (s.takeWhile pyIsWs) ++ pyLower (pyStrip s) ++
      pyLower (((s.dropWhile pyIsWs).reverse.takeWhile pyIsWs).reverse) := by
    conv_lhs => rw [pyStrip_decomp s]
    unfold pyLower
    rw [List.map_append, List.map_append]
  have het : containsSub (pyLower (pyStrip s)) ("esp.".toList) = false := by
    by_contra hh
    rw [Bool.not_eq_false] at hh
    exact absurd (containsSub_mid _ _ hlow hh) (by simpa using he)
  have hgt : containsSub (pyLower (pyStrip s)) ("e.g.".toList) = false := by
    by_contra hh
    rw [Bool.not_eq_false] at hh
    exact absurd (containsSub_mid _ _ hlow hh) (by simpa using hg)
  have hred := normalize_reduced s hmt het hgt
  rw [hred]
  have hTm : ∀ c ∈ collapseWs (pyLower (pyStrip s)), isMarker c = false := by
    intro c hc
    rcases mem_collapseWs hc with h | h
    · exact hmt c h
    · subst h; decide
  have hTup : ∀ c ∈ collapseWs (pyLower (pyStrip s)), c.isUpper = false := by
    intro c hc
    rcases mem_collapseWs hc with h | h
    · unfold pyLower at h
      rw [List.mem_map] at h
      obtain ⟨c', _, rfl⟩ := h
      exact toLower_not_upper c'
    · subst h; decide
  have hTlow : pyLower (collapseWs (pyLower (pyStrip s))) =
      collapseWs (pyLower (pyStrip s)) := pyLower_fix hTup
  have hTstrip : pyStrip (collapseWs (pyLower (pyStrip s))) =
      collapseWs (pyLower (pyStrip s)) := pyStrip_collapseWs _
  have hTe : containsSub (collapseWs (pyLower (pyStrip s))) ("esp.".toList) = false := by
    by_contra hh
    rw [Bool.not_eq_false] at hh
    exact absurd (containsSub_collapseWs (by decide) (by decide) hh) (by simpa using het)
  have hTg : containsSub (collapseWs (pyLower (pyStrip s))) ("e.g.".toList) = false := by
    by_contra hh
    rw [Bool.not_eq_false] at hh
    exact absurd (containsSub_collapseWs (by decide) (by decide) hh) (by simpa using hgt)
  have hred2 := normalize_reduced (collapseWs (pyLower (pyStrip s)))
    (by rw [hTstrip, hTlow]; exact hTm)
    (by rw [hTstrip, hTlow]; exact hTe)
    (by rw [hTstrip, hTlow]; exact hTg)
  rw [hred2, hTstrip, hTlow]
  exact collapseWs_idem (pyLower (pyStrip s))

/-- C8 witness: the amended idempotence applies to the concrete marker-free
input `"Red  APPLES"`. -/
theorem c8_witness :
    normalize_ingredient (normalize_ingredient ("Red  APPLES".toList)) =
      normalize_ingredient ("Red  APPLES".toList) :=
  c8_amended ("Red  APPLES".toList) (by decide) (by decide) (by decide)

end CulinaryCosmos
